import Mathlib

/-!
Verification of the clarifAI data-processing pipeline
(`src/server/lib/dataProcessor.ts`) against its natural-language specification.

Modeling conventions for the shallow embedding:
* JS scalar cell values are a tagged union of strings, exact rationals and the
  null/undefined marker (`Value`).  JS `Number()` is modeled on the decimal
  fragment (sign, digits, optional fraction); scientific/hex literals do not
  occur in the pipeline's data.  JS `String()` on a rational is modeled by an
  injective rendering that agrees with JS on integers.
* `Math.random()` is modeled as an explicit tape of rationals (`Rng`).  The
  Box-Muller noise term `z0 * stdDev` — the only irrational-valued expression
  in the pipeline — is abstracted as an explicit function parameter `noise`.
* Calls to the external HuggingFace enrichment capability are modeled as
  absent no-ops, as the specification directs for missing collaborators.
* JS records are ordered association lists; reading an absent key yields the
  null/undefined marker, writing an absent key appends it, as in JS.
-/

namespace ClarifAI

/-! Kernel-computable string and rational primitives.  The standard-library
`String.trim`, `String.toLower`, `List.mergeSort` and the `Rat` field
operations are either defined by well-founded recursion or marked
irreducible, so concrete runs of the pipeline could not be evaluated inside
proofs with them; the primitives below compute the same functions
structurally. -/

/-- JS `String.prototype.trim`: drop leading and trailing whitespace. -/
def trimChars (l : List Char) : List Char :=
  ((l.dropWhile Char.isWhitespace).reverse.dropWhile Char.isWhitespace).reverse

/-- JS `trim` on strings. -/
def jsTrim (s : String) : String := String.mk (trimChars s.data)

/-- JS `toLowerCase` (ASCII case mapping). -/
def jsLower (s : String) : String := String.mk (s.data.map Char.toLower)

/-- Exact rational addition, `mkRat`-normalized. -/
def qAdd (a b : ℚ) : ℚ := mkRat (a.num * b.den + b.num * a.den) (a.den * b.den)

/-- Exact division of a rational by a natural number (call sites guard
against zero divisors, as JS produces no finite value there). -/
def qDivNat (a : ℚ) (n : ℕ) : ℚ := mkRat a.num (a.den * n)

/-- JS `Math.floor` on an exact rational. -/
def jsFloor (q : ℚ) : ℤ := Int.fdiv q.num q.den

/-- Insert into an ascending list. -/
def insertAsc (x : ℚ) : List ℚ → List ℚ
  | [] => [x]
  | y :: ys => if x ≤ y then x :: y :: ys else y :: insertAsc x ys

/-- Ascending sort (JS `sort((a, b) => a - b)`); on rationals every
comparison sort yields this same list, so insertion sort is an exact model. -/
def sortAsc (l : List ℚ) : List ℚ := l.foldr insertAsc []

/-- A JS scalar cell value: a string, a number (exact rational), or the
null/undefined absent marker. -/
inductive Value where
  | str (s : String)
  | num (q : ℚ)
  | null
deriving DecidableEq, Repr

/-- The case-insensitive missing-marker word list from `isMissing`. -/
def missingTokens : List String := ["null", "undefined", "na", "n/a", "none"]

/-- `isMissing` from dataProcessor.ts: null/undefined, empty or
whitespace-only strings, and the fixed case-insensitive token list. -/
def isMissing : Value → Bool
  | Value.null => true
  | Value.num _ => false
  | Value.str s => s == "" || jsTrim s == "" || missingTokens.contains (jsLower s)

/-- Value of a digit string read in base 10. -/
def digitsToNat (l : List Char) : ℕ :=
  l.foldl (fun a c => a * 10 + (c.toNat - 48)) 0

/-- JS `Number(string)` on the decimal fragment: trimmed, empty string is 0,
optional sign, digits with an optional fractional part; anything else is NaN
(`none`). -/
def jsParseNum (s : String) : Option ℚ :=
  let t := trimChars s.data
  if t.isEmpty then some 0
  else
    let signBody : ℤ × List Char :=
      match t with
      | '-' :: rest => ((-1 : ℤ), rest)
      | '+' :: rest => ((1 : ℤ), rest)
      | l => ((1 : ℤ), l)
    let intPart := signBody.2.takeWhile Char.isDigit
    let rest := signBody.2.drop intPart.length
    match rest with
    | [] => if intPart.isEmpty then none else some (mkRat (signBody.1 * digitsToNat intPart) 1)
    | '.' :: frac =>
      if frac.all Char.isDigit && !(intPart.isEmpty && frac.isEmpty) then
        some (mkRat (signBody.1 * (digitsToNat intPart * 10 ^ frac.length + digitsToNat frac))
          (10 ^ frac.length))
      else none
    | _ => none

/-- JS `Number(value)`: `none` models NaN.  `Number(null) = 0`. -/
def jsToNum : Value → Option ℚ
  | Value.num q => some q
  | Value.null => some 0
  | Value.str s => jsParseNum s

/-- Injective rendering of a rational, agreeing with JS number-to-string on
integers (the only numeric keys the claims exercise). -/
def ratToString (q : ℚ) : String :=
  if q.den = 1 then toString q.num else toString q.num ++ "/" ++ toString q.den

/-- JS `String(value)`. -/
def jsToString : Value → String
  | Value.str s => s
  | Value.num q => ratToString q
  | Value.null => "null"

/-- JS truthiness of a cell value (no NaN in the model). -/
def truthy : Value → Bool
  | Value.str s => s != ""
  | Value.num q => q != 0
  | Value.null => false

/-- First-occurrence deduplication, as `[...new Set(xs)]` in JS. -/
def uniqList {α : Type} [DecidableEq α] (l : List α) : List α :=
  l.foldl (fun acc v => if v ∈ acc then acc else acc ++ [v]) []

theorem uniqAux_mem {α : Type} [DecidableEq α] (l acc : List α) (a : α) :
    a ∈ l.foldl (fun acc v => if v ∈ acc then acc else acc ++ [v]) acc ↔
      a ∈ acc ∨ a ∈ l := by
  induction l generalizing acc with
  | nil => simp
  | cons x xs ih =>
    simp only [List.foldl_cons]
    by_cases hx : x ∈ acc
    · rw [if_pos hx, ih]
      constructor
      · rintro (h | h)
        · exact Or.inl h
        · exact Or.inr (List.mem_cons_of_mem _ h)
      · rintro (h | h)
        · exact Or.inl h
        · rcases List.mem_cons.mp h with h | h
          · exact Or.inl (h ▸ hx)
          · exact Or.inr h
    · rw [if_neg hx, ih]
      simp only [List.mem_append, List.mem_singleton, List.mem_cons]
      tauto

theorem mem_uniqList {α : Type} [DecidableEq α] (l : List α) (a : α) :
    a ∈ uniqList l ↔ a ∈ l := by
  unfold uniqList
  rw [uniqAux_mem]
  simp

theorem uniqAux_nodup {α : Type} [DecidableEq α] (l acc : List α) (h : acc.Nodup) :
    (l.foldl (fun acc v => if v ∈ acc then acc else acc ++ [v]) acc).Nodup := by
  induction l generalizing acc with
  | nil => simpa
  | cons x xs ih =>
    simp only [List.foldl_cons]
    by_cases hx : x ∈ acc
    · rw [if_pos hx]; exact ih _ h
    · rw [if_neg hx]
      refine ih _ ?_
      simp [List.nodup_append, h, hx]

theorem uniqList_nodup {α : Type} [DecidableEq α] (l : List α) :
    (uniqList l).Nodup :=
  uniqAux_nodup l [] List.nodup_nil

theorem uniqAux_eq_append {α : Type} [DecidableEq α] (l acc : List α)
    (h : (acc ++ l).Nodup) :
    l.foldl (fun acc v => if v ∈ acc then acc else acc ++ [v]) acc = acc ++ l := by
  induction l generalizing acc with
  | nil => simp
  | cons x xs ih =>
    simp only [List.foldl_cons]
    have hx : x ∉ acc := by
      intro hmem
      have := List.disjoint_of_nodup_append h
      exact this hmem (List.mem_cons_self x xs)
    rw [if_neg hx]
    have : (acc ++ [x]) ++ xs = acc ++ x :: xs := by simp
    rw [ih (acc ++ [x]) (by rw [this]; exact h)]
    simp

theorem uniqList_eq_self {α : Type} [DecidableEq α] (l : List α) (h : l.Nodup) :
    uniqList l = l := by
  unfold uniqList
  rw [uniqAux_eq_append l [] (by simpa)]
  simp

/-- `getMostFrequent` / `getMostCommonVariant` from dataProcessor.ts: counts
per value in first-occurrence order, sorted by descending count with JS's
stable sort, first entry taken — i.e. the earliest value attaining the
maximal count. -/
def getMostFrequent (data : List Value) : Value :=
  (uniqList data).foldl
    (fun best v => if data.count best < data.count v then v else best)
    ((uniqList data).headD Value.null)

theorem getMostFrequent_fold_mem (data : List Value) (xs : List Value)
    (b : Value) (hb : b ∈ data) (hxs : ∀ x ∈ xs, x ∈ data) :
    xs.foldl (fun best v => if data.count best < data.count v then v else best) b ∈ data := by
  induction xs generalizing b with
  | nil => simpa
  | cons x rest ih =>
    simp only [List.foldl_cons]
    by_cases h : data.count b < data.count x
    · rw [if_pos h]
      exact ih x (hxs x (List.mem_cons_self x rest)) (fun y hy => hxs y (List.mem_cons_of_mem _ hy))
    · rw [if_neg h]
      exact ih b hb (fun y hy => hxs y (List.mem_cons_of_mem _ hy))

theorem getMostFrequent_mem (data : List Value) (h : data ≠ []) :
    getMostFrequent data ∈ data := by
  unfold getMostFrequent
  have hne : uniqList data ≠ [] := by
    intro habs
    rcases List.exists_mem_of_ne_nil data h with ⟨a, ha⟩
    have : a ∈ uniqList data := (mem_uniqList data a).mpr ha
    simp [habs] at this
  refine getMostFrequent_fold_mem data _ _ ?_ ?_
  · have : (uniqList data).headD Value.null ∈ uniqList data := by
      cases hu : uniqList data with
      | nil => exact absurd hu hne
      | cons y ys => simp
    exact (mem_uniqList data _).mp this
  · exact fun x hx => (mem_uniqList data x).mp hx

theorem getMostFrequent_fold_const (data : List Value) (xs : List Value)
    (b : Value) (hxs : ∀ x ∈ xs, ¬ data.count b < data.count x) :
    xs.foldl (fun best v => if data.count best < data.count v then v else best) b = b := by
  induction xs with
  | nil => rfl
  | cons x rest ih =>
    simp only [List.foldl_cons]
    rw [if_neg (hxs x (List.mem_cons_self x rest))]
    exact ih (fun y hy => hxs y (List.mem_cons_of_mem _ hy))

/-- On a duplicate-free list every count is 1, so the stable descending sort
leaves the order unchanged and the head is the first element. -/
theorem getMostFrequent_of_nodup (l : List Value) (h : l.Nodup) :
    getMostFrequent l = l.headD Value.null := by
  unfold getMostFrequent
  rw [uniqList_eq_self l h]
  cases l with
  | nil => rfl
  | cons x xs =>
    simp only [List.headD_cons]
    refine getMostFrequent_fold_const _ _ _ ?_
    intro y hy
    have hx1 : (x :: xs).count x = 1 := by
      have hxmem : x ∈ x :: xs := List.mem_cons_self x xs
      exact List.count_eq_one_of_mem h hxmem
    have hy1 : (x :: xs).count y = 1 := List.count_eq_one_of_mem h hy
    omega

/-- The three column classifications of `inferColumnType`. -/
inductive ColumnType where
  | numeric
  | categorical
  | text
deriving DecidableEq, Repr

/-- `inferColumnType` from dataProcessor.ts: exclude missing values (all
missing defaults to text); numeric when strictly more than 80% of the
remainder parses as a number; else categorical when the distinct-value share
is strictly below 10%, else text. -/
def inferColumnType (data : List Value) : ColumnType :=
  let nonMissingData := data.filter (fun v => !isMissing v)
  if nonMissingData.length = 0 then ColumnType.text
  else
    let numericCount := (nonMissingData.filter (fun v => (jsToNum v).isSome)).length
    if mkRat 4 5 < mkRat numericCount nonMissingData.length then ColumnType.numeric
    else if mkRat ((uniqList nonMissingData).length) nonMissingData.length < mkRat 1 10
      then ColumnType.categorical
    else ColumnType.text

/-- `calculateMedian` from dataProcessor.ts: ascending sort; even length
averages the two middle elements. -/
def calculateMedian (numbers : List ℚ) : ℚ :=
  let sorted := sortAsc numbers
  let mid := sorted.length / 2
  if sorted.length % 2 = 0 then qDivNat (qAdd (sorted.getD (mid - 1) 0) (sorted.getD mid 0)) 2
  else sorted.getD mid 0

/-- `calculateFillValue` from dataProcessor.ts.  Note the early return of the
empty string when the column has no non-missing value: the `'Unknown'`
fallback in the text branch is reached only when the mode is a falsy
non-missing value. -/
def calculateFillValue (data : List Value) (type : ColumnType) : Value :=
  let nonMissingData := data.filter (fun v => !isMissing v)
  if nonMissingData.length = 0 then Value.str ""
  else
    match type with
    | ColumnType.numeric =>
      let numbers := nonMissingData.filterMap jsToNum
      if numbers.length > 0 then Value.num (calculateMedian numbers) else Value.num 0
    | ColumnType.categorical => getMostFrequent nonMissingData
    | ColumnType.text =>
      let mostCommon := getMostFrequent nonMissingData
      if truthy mostCommon then mostCommon else Value.str "Unknown"

/-- A JS record: an ordered association list from column names to values. -/
abbrev Record := List (String × Value)

/-- A dataset: an ordered sequence of records. -/
abbrev Dataset := List Record

/-- JS `row[column]`: the value stored under the first matching key, the
null/undefined marker when the key is absent. -/
def getField (row : Record) (column : String) : Value :=
  match row.find? (fun p => p.1 == column) with
  | some p => p.2
  | none => Value.null

/-- JS `row[column] = v`: update the key in place when present, append it
otherwise. -/
def setField (row : Record) (column : String) (v : Value) : Record :=
  if row.any (fun p => p.1 == column) then
    row.map (fun p => if p.1 == column then (column, v) else p)
  else row ++ [(column, v)]

/-- `Object.keys(data[0])`. -/
def columnsOf (data : Dataset) : List String := (data.headD []).map Prod.fst

theorem getField_nil (c : String) : getField [] c = Value.null := rfl

theorem getField_cons_of_pos (p : String × Value) (rest : Record) (c : String)
    (h : (p.1 == c) = true) : getField (p :: rest) c = p.2 := by
  simp [getField, List.find?_cons, h]

theorem getField_cons_of_neg (p : String × Value) (rest : Record) (c : String)
    (h : (p.1 == c) = false) : getField (p :: rest) c = getField rest c := by
  simp [getField, List.find?_cons, h]

theorem getField_map_ne (row : Record) (c c' : String) (v : Value) (h : c' ≠ c) :
    getField (row.map (fun p => if p.1 == c then (c, v) else p)) c' = getField row c' := by
  induction row with
  | nil => rfl
  | cons p rest ih =>
    simp only [List.map_cons]
    by_cases hp : p.1 = c
    · rw [show (if p.1 == c then (c, v) else p) = (c, v) by simp [hp]]
      rw [getField_cons_of_neg (c, v) _ c' (by simpa using fun hcc => h hcc.symm)]
      rw [getField_cons_of_neg p rest c' (by rw [hp]; simpa using fun hcc => h hcc.symm)]
      exact ih
    · rw [show (if p.1 == c then (c, v) else p) = p by simp [hp]]
      by_cases hp' : p.1 = c'
      · rw [getField_cons_of_pos p _ c' (by simpa using hp'),
          getField_cons_of_pos p rest c' (by simpa using hp')]
      · rw [getField_cons_of_neg p _ c' (by simpa using hp'),
          getField_cons_of_neg p rest c' (by simpa using hp')]
        exact ih

theorem getField_map_eq (row : Record) (c : String) (v : Value)
    (hany : row.any (fun p => p.1 == c) = true) :
    getField (row.map (fun p => if p.1 == c then (c, v) else p)) c = v := by
  induction row with
  | nil => simp at hany
  | cons p rest ih =>
    simp only [List.map_cons]
    by_cases hp : p.1 = c
    · rw [show (if p.1 == c then (c, v) else p) = (c, v) by simp [hp]]
      rw [getField_cons_of_pos (c, v) _ c (by simp)]
    · rw [show (if p.1 == c then (c, v) else p) = p by simp [hp]]
      have hrest : rest.any (fun p => p.1 == c) = true := by
        simp only [List.any_cons] at hany
        rcases Bool.or_eq_true_iff.mp hany with h1 | h1
        · exact absurd (beq_iff_eq.mp h1) hp
        · exact h1
      rw [getField_cons_of_neg p _ c (by simpa using hp)]
      exact ih hrest

theorem getField_append_single (row : Record) (c c' : String) (v : Value)
    (hnone : row.any (fun p => p.1 == c) = false) :
    getField (row ++ [(c, v)]) c' = if c' = c then v else getField row c' := by
  induction row with
  | nil =>
    by_cases h : c' = c
    · simp only [List.nil_append, if_pos h]
      exact getField_cons_of_pos (c, v) [] c' (by simp [h])
    · simp only [List.nil_append, if_neg h]
      rw [getField_cons_of_neg (c, v) [] c' (by simpa using fun hcc => h hcc.symm)]
  | cons p rest ih =>
    simp only [List.any_cons, Bool.or_eq_false_iff] at hnone
    rw [List.cons_append]
    by_cases hp' : p.1 = c'
    · have hne : c' ≠ c := by
        intro h
        rw [h] at hp'
        rw [show (p.1 == c) = true by simpa using hp'] at hnone
        simp at hnone
      rw [if_neg hne, getField_cons_of_pos p _ c' (by simpa using hp'),
        getField_cons_of_pos p rest c' (by simpa using hp')]
    · rw [getField_cons_of_neg p _ c' (by simpa using hp'),
        getField_cons_of_neg p rest c' (by simpa using hp')]
      exact ih hnone.2

/-- The central field-access law: after `row[c] = v`, reading `c'` yields `v`
exactly when `c' = c`, the old value otherwise. -/
theorem getField_setField (row : Record) (c c' : String) (v : Value) :
    getField (setField row c v) c' = if c' = c then v else getField row c' := by
  unfold setField
  by_cases hany : row.any (fun p => p.1 == c) = true
  · rw [if_pos hany]
    by_cases h : c' = c
    · rw [if_pos h, h]
      exact getField_map_eq row c v hany
    · rw [if_neg h]
      exact getField_map_ne row c c' v h
  · have hf : row.any (fun p => p.1 == c) = false := Bool.eq_false_iff.mpr hany
    rw [hf]
    simp only [Bool.false_eq_true, if_false]
    exact getField_append_single row c c' v hf

theorem keys_setField (row : Record) (c : String) (v : Value)
    (hany : row.any (fun p => p.1 == c) = true) :
    (setField row c v).map Prod.fst = row.map Prod.fst := by
  unfold setField
  rw [if_pos hany, List.map_map]
  apply List.map_congr_left
  rintro ⟨a, b⟩ _
  by_cases hp : a = c
  · simp [hp]
  · simp [hp]

/-- The single fill value computed for one column of a dataset. -/
def fillValueFor (data : Dataset) (column : String) : Value :=
  let columnData := data.map (fun row => getField row column)
  calculateFillValue columnData (inferColumnType columnData)

/-- One iteration of the per-column loop of `fillMissingValues`: find the
missing cells of the column (read from the stage-entry rows; each column
writes only its own field, so this equals the current state), skip when there
are none, otherwise write the per-column fill value into every missing cell
and add the count. -/
def fillColumnStep (data : Dataset) (acc : Dataset × ℕ) (column : String) : Dataset × ℕ :=
  let missingCount := (data.map (fun row => getField row column)).countP isMissing
  if missingCount = 0 then acc
  else
    ((data.zip acc.1).map (fun pr =>
        if isMissing (getField pr.1 column) then setField pr.2 column (fillValueFor data column)
        else pr.2),
      acc.2 + missingCount)

/-- `fillMissingValues` from dataProcessor.ts: per-column statistical
imputation, returning the filled dataset and the fill count. -/
def fillMissingValues (data : Dataset) : Dataset × ℕ :=
  if data.length = 0 then (data, 0)
  else (columnsOf data).foldl (fillColumnStep data) (data, 0)

theorem fillColumnStep_length (data : Dataset) (acc : Dataset × ℕ) (c : String)
    (h : acc.1.length = data.length) : (fillColumnStep data acc c).1.length = data.length := by
  simp only [fillColumnStep]
  by_cases h0 : (data.map (fun row => getField row c)).countP isMissing = 0
  · rw [if_pos h0]
    exact h
  · rw [if_neg h0]
    simp [h]

theorem fill_fold_length (data : Dataset) (cols : List String) (acc : Dataset × ℕ)
    (h : acc.1.length = data.length) :
    ((cols.foldl (fillColumnStep data) acc).1).length = data.length := by
  induction cols generalizing acc with
  | nil => simpa
  | cons c rest ih => exact ih _ (fillColumnStep_length data acc c h)

theorem fillMissingValues_length (data : Dataset) :
    (fillMissingValues data).1.length = data.length := by
  unfold fillMissingValues
  by_cases h : data.length = 0
  · simp [h]
  · rw [if_neg h]
    exact fill_fold_length data _ _ rfl

theorem fillColumnStep_getD (data : Dataset) (acc : Dataset × ℕ) (c : String)
    (hlen : acc.1.length = data.length) (i : ℕ) (hi : i < data.length) :
    (fillColumnStep data acc c).1.getD i [] =
      if isMissing (getField (data.getD i []) c) then
        setField (acc.1.getD i []) c (fillValueFor data c)
      else acc.1.getD i [] := by
  simp only [fillColumnStep]
  by_cases h0 : (data.map (fun row => getField row c)).countP isMissing = 0
  · have hnm : ¬ isMissing (getField (data.getD i []) c) = true := by
      have hall := List.countP_eq_zero.mp h0
      have hmem : getField (data.getD i []) c ∈ data.map (fun row => getField row c) := by
        rw [List.getD_eq_getElem data [] hi]
        exact List.mem_map_of_mem _ (data.getElem_mem hi)
      exact hall _ hmem
    rw [if_pos h0, if_neg hnm]
  · rw [if_neg h0]
    have hzlen : i < ((data.zip acc.1).map (fun pr =>
        if isMissing (getField pr.1 c) then setField pr.2 c (fillValueFor data c)
        else pr.2)).length := by
      simp [hlen, hi]
    rw [List.getD_eq_getElem _ [] hzlen, List.getElem_map, List.getElem_zip,
      List.getD_eq_getElem data [] hi, List.getD_eq_getElem acc.1 [] (by omega)]

theorem fill_fold_getD (data : Dataset) (cols : List String) (acc : Dataset × ℕ)
    (hlen : acc.1.length = data.length) (i : ℕ) (hi : i < data.length) (c : String) :
    getField ((cols.foldl (fillColumnStep data) acc).1.getD i []) c =
      if c ∈ cols ∧ isMissing (getField (data.getD i []) c) = true then fillValueFor data c
      else getField (acc.1.getD i []) c := by
  induction cols generalizing acc with
  | nil => simp
  | cons c0 rest ih =>
    simp only [List.foldl_cons]
    rw [ih _ (fillColumnStep_length data acc c0 hlen)]
    by_cases hc : c ∈ rest ∧ isMissing (getField (data.getD i []) c) = true
    · rw [if_pos hc, if_pos ⟨List.mem_cons_of_mem _ hc.1, hc.2⟩]
    · rw [if_neg hc, fillColumnStep_getD data acc c0 hlen i hi]
      by_cases hm : isMissing (getField (data.getD i []) c0) = true
      · rw [if_pos hm, getField_setField]
        by_cases hcc : c = c0
        · rw [if_pos hcc,
            if_pos ⟨by rw [hcc]; exact List.mem_cons_self c0 rest, by rw [hcc]; exact hm⟩,
            hcc]
        · rw [if_neg hcc, if_neg ?hout]
          case hout =>
            rintro ⟨hmem, hmiss⟩
            rcases List.mem_cons.mp hmem with h | h
            · exact hcc h
            · exact hc ⟨h, hmiss⟩
      · rw [if_neg hm, if_neg ?hout2]
        case hout2 =>
          rintro ⟨hmem, hmiss⟩
          rcases List.mem_cons.mp hmem with h | h
          · rw [h] at hmiss
            exact hm hmiss
          · exact hc ⟨h, hmiss⟩

/-- Cell-level characterization of `fillMissingValues`: a cell changes
exactly when its column belongs to the record schema and the original cell is
missing, in which case it receives the per-column fill value. -/
theorem fillMissingValues_getD (data : Dataset) (i : ℕ) (hi : i < data.length) (c : String) :
    getField ((fillMissingValues data).1.getD i []) c =
      if c ∈ columnsOf data ∧ isMissing (getField (data.getD i []) c) = true then
        fillValueFor data c
      else getField (data.getD i []) c := by
  unfold fillMissingValues
  have hne : ¬ data.length = 0 := by omega
  rw [if_neg hne]
  exact fill_fold_getD data _ _ rfl i hi c

/-- When a column has at least one non-missing value, the fill value is
itself non-missing. -/
theorem calculateFillValue_not_missing (data : List Value) (t : ColumnType)
    (h : data.filter (fun v => !isMissing v) ≠ []) :
    isMissing (calculateFillValue data t) = false := by
  have hlen : ¬ (data.filter (fun v => !isMissing v)).length = 0 := by
    simpa [List.length_eq_zero] using h
  have hmem := getMostFrequent_mem _ h
  have hmost : isMissing (getMostFrequent (data.filter (fun v => !isMissing v))) = false := by
    have := (List.mem_filter.mp hmem).2
    simpa using this
  cases t with
  | numeric =>
    simp only [calculateFillValue]
    rw [if_neg hlen]
    by_cases hn : ((data.filter (fun v => !isMissing v)).filterMap jsToNum).length > 0
    · rw [if_pos hn]
      rfl
    · rw [if_neg hn]
      rfl
  | categorical =>
    simp only [calculateFillValue]
    rw [if_neg hlen]
    exact hmost
  | text =>
    simp only [calculateFillValue]
    rw [if_neg hlen]
    by_cases ht : truthy (getMostFrequent (data.filter (fun v => !isMissing v))) = true
    · rw [if_pos ht]
      exact hmost
    · rw [if_neg ht]
      decide

theorem fillValueFor_all_missing (data : Dataset) (c : String)
    (h : (data.map (fun row => getField row c)).filter (fun v => !isMissing v) = []) :
    fillValueFor data c = Value.str "" := by
  simp only [fillValueFor, calculateFillValue]
  rw [if_pos (by rw [h]; rfl)]

/-- C4, counterexample: in the column `["1","2","3","4","x"]` exactly 80% of
the non-missing values parse as numbers, yet the inferred type is Text, not
Numeric as the claim states for the exactly-80% case. -/
theorem inferColumnType_eighty_percent_cex :
    inferColumnType [Value.str "1", Value.str "2", Value.str "3", Value.str "4", Value.str "x"]
        = ColumnType.text ∧
      5 * (([Value.str "1", Value.str "2", Value.str "3", Value.str "4",
            Value.str "x"].filter (fun v => !isMissing v)).filter
          (fun v => (jsToNum v).isSome)).length =
        4 * ([Value.str "1", Value.str "2", Value.str "3", Value.str "4",
            Value.str "x"].filter (fun v => !isMissing v)).length := by
  decide

theorem mkRat_gt_four_fifths (cnt len : ℕ) (h : len ≠ 0) :
    (mkRat 4 5 < mkRat cnt len) ↔ 4 * len < 5 * cnt := by
  have hpos : (0 : ℚ) < (len : ℚ) := by exact_mod_cast Nat.pos_of_ne_zero h
  rw [Rat.mkRat_eq_div, Rat.mkRat_eq_div, div_lt_div_iff₀ (by norm_num) hpos]
  constructor
  · intro hq
    have h' : ((4 : ℚ)) * len < 5 * cnt := by push_cast at hq ⊢; linarith
    exact_mod_cast h'
  · intro hn
    have h' : ((4 : ℚ)) * len < 5 * cnt := by exact_mod_cast hn
    push_cast at h' ⊢
    linarith

theorem mkRat_lt_one_tenth (u len : ℕ) (h : len ≠ 0) :
    (mkRat u len < mkRat 1 10) ↔ 10 * u < len := by
  have hpos : (0 : ℚ) < (len : ℚ) := by exact_mod_cast Nat.pos_of_ne_zero h
  rw [Rat.mkRat_eq_div, Rat.mkRat_eq_div, div_lt_div_iff₀ hpos (by norm_num)]
  constructor
  · intro hq
    have h' : ((10 : ℚ)) * u < len := by push_cast at hq ⊢; linarith
    exact_mod_cast h'
  · intro hn
    have h' : ((10 : ℚ)) * u < len := by exact_mod_cast hn
    push_cast at h' ⊢
    linarith

/-- C4 (amended): `inferColumnType` excludes missing values; an all-missing
column is Text; the column is Numeric exactly when STRICTLY more than 80% of
the remaining values parse as a number (at exactly 80% it is not Numeric);
otherwise it is Categorical when the distinct-value share is strictly below
10% and Text otherwise. -/
theorem inferColumnType_spec_amended (data : List Value) :
    inferColumnType data =
      (if (data.filter (fun v => !isMissing v)).length = 0 then ColumnType.text
       else if 4 * (data.filter (fun v => !isMissing v)).length <
          5 * ((data.filter (fun v => !isMissing v)).filter (fun v => (jsToNum v).isSome)).length
         then ColumnType.numeric
       else if 10 * (uniqList (data.filter (fun v => !isMissing v))).length <
          (data.filter (fun v => !isMissing v)).length then ColumnType.categorical
       else ColumnType.text) := by
  simp only [inferColumnType]
  by_cases h0 : (data.filter (fun v => !isMissing v)).length = 0
  · rw [if_pos h0, if_pos h0]
  · rw [if_neg h0, if_neg h0]
    exact if_congr (mkRat_gt_four_fifths _ _ h0) rfl
      (if_congr (mkRat_lt_one_tenth _ _ h0) rfl rfl)

/-- C10: imputation modifies only missing cells — a cell whose input value is
non-missing is returned unchanged by `fillMissingValues`. -/
theorem fillMissingValues_frame (data : Dataset) (i : ℕ) (c : String)
    (hi : i < data.length)
    (h : ¬ isMissing (getField (data.getD i []) c) = true) :
    getField ((fillMissingValues data).1.getD i []) c = getField (data.getD i []) c := by
  rw [fillMissingValues_getD data i hi c, if_neg ?hcond]
  case hcond =>
    rintro ⟨_, hm⟩
    exact h hm

/-- Witness for C10 at a concrete dataset. -/
theorem fillMissingValues_frame_witness :
    0 < ([[("a", Value.str "x"), ("b", Value.str "")]] : Dataset).length ∧
    ¬ isMissing (getField (([[("a", Value.str "x"), ("b", Value.str "")]] : Dataset).getD 0 [])
      "a") = true ∧
    getField ((fillMissingValues [[("a", Value.str "x"), ("b", Value.str "")]]).1.getD 0 []) "a" =
      getField (([[("a", Value.str "x"), ("b", Value.str "")]] : Dataset).getD 0 []) "a" :=
  ⟨by decide, by decide,
    fillMissingValues_frame [[("a", Value.str "x"), ("b", Value.str "")]] 0 "a"
      (by decide) (by decide)⟩

/-- C2, counterexample: a column whose values are all missing is filled with
the empty string — itself a missing marker — not with `"Unknown"`. -/
theorem fill_allMissing_empty_string_cex :
    (fillMissingValues [[("a", Value.str "")]]).1 = [[("a", Value.str "")]] ∧
    isMissing (getField ((fillMissingValues [[("a", Value.str "")]]).1.getD 0 []) "a") = true ∧
    getField ((fillMissingValues [[("a", Value.str "")]]).1.getD 0 []) "a" ≠
      Value.str "Unknown" := by
  decide

/-- C2 (amended): after imputation no column contains a missing value, except
that a column whose values were all missing (necessarily inferred Text) has
every cell equal to the empty string `""` — the source's early return
produces `""` there, so the `"Unknown"` fallback is never reached. -/
theorem fillMissingValues_totality_amended (data : Dataset) (c : String)
    (hc : c ∈ columnsOf data) :
    ((fillMissingValues data).1.all (fun row => !isMissing (getField row c)) = true) ∨
    (data.all (fun row => isMissing (getField row c)) = true ∧
      (fillMissingValues data).1.all (fun row => getField row c == Value.str "") = true) := by
  have hlen := fillMissingValues_length data
  by_cases hall : data.all (fun row => isMissing (getField row c)) = true
  · right
    refine ⟨hall, ?_⟩
    rw [List.all_eq_true]
    intro row hrow
    obtain ⟨i, hi, hre⟩ := List.mem_iff_getElem.mp hrow
    have hi' : i < data.length := by omega
    have hmiss : isMissing (getField (data.getD i []) c) = true := by
      have := List.all_eq_true.mp hall (data.getD i [])
        (by rw [List.getD_eq_getElem data [] hi']; exact data.getElem_mem hi')
      exact this
    have hfill : fillValueFor data c = Value.str "" := by
      apply fillValueFor_all_missing
      rw [List.filter_eq_nil_iff]
      intro v hv
      obtain ⟨row0, hrow0, hveq⟩ := List.mem_map.mp hv
      have := List.all_eq_true.mp hall row0 hrow0
      rw [← hveq] at *
      simp [this]
    have : getField row c = Value.str "" := by
      rw [← hre, ← List.getD_eq_getElem (fillMissingValues data).1 [] hi,
        fillMissingValues_getD data i hi' c, if_pos ⟨hc, hmiss⟩, hfill]
    rw [this]
    decide
  · left
    rw [List.all_eq_true]
    intro row hrow
    obtain ⟨i, hi, hre⟩ := List.mem_iff_getElem.mp hrow
    have hi' : i < data.length := by omega
    have hne : (data.map (fun row => getField row c)).filter (fun v => !isMissing v) ≠ [] := by
      intro habs
      apply hall
      rw [List.all_eq_true]
      intro row0 hrow0
      have := List.filter_eq_nil_iff.mp habs (getField row0 c)
        (List.mem_map_of_mem _ hrow0)
      simpa using this
    have hfill : isMissing (fillValueFor data c) = false := by
      simp only [fillValueFor]
      exact calculateFillValue_not_missing _ _ hne
    rw [← hre, ← List.getD_eq_getElem (fillMissingValues data).1 [] hi,
      fillMissingValues_getD data i hi' c]
    by_cases hm : isMissing (getField (data.getD i []) c) = true
    · rw [if_pos ⟨hc, hm⟩, hfill]
      rfl
    · rw [if_neg (by rintro ⟨_, h⟩; exact hm h)]
      simpa using hm

/-- Witness for C2 at a concrete dataset. -/
theorem fillMissingValues_totality_amended_witness :
    "a" ∈ columnsOf [[("a", Value.str "hello")]] ∧
    (((fillMissingValues [[("a", Value.str "hello")]]).1.all
        (fun row => !isMissing (getField row "a")) = true) ∨
      (([[("a", Value.str "hello")]] : Dataset).all
          (fun row => isMissing (getField row "a")) = true ∧
        (fillMissingValues [[("a", Value.str "hello")]]).1.all
          (fun row => getField row "a" == Value.str "") = true)) :=
  ⟨by decide, fillMissingValues_totality_amended [[("a", Value.str "hello")]] "a" (by decide)⟩

/-! Label normalization (`normalizeLabels`, `createNormalizationMap`). -/

/-- The grouping key of `createNormalizationMap`:
`String(value).toLowerCase().trim()`. -/
def normKey (v : Value) : String := jsTrim (jsLower (jsToString v))

/-- The Map-of-arrays grouping loop of `createNormalizationMap`: keys in
first-encounter order, each group holding the values with that key in
encounter order. -/
def groupByKey (values : List Value) : List (String × List Value) :=
  (uniqList (values.map normKey)).map
    (fun k => (k, values.filter (fun v => normKey v == k)))

/-- `getMostCommonVariant` from dataProcessor.ts — its body is textually
identical to `getMostFrequent`. -/
def getMostCommonVariant (variants : List Value) : Value := getMostFrequent variants

/-- `createNormalizationMap`: in groups of more than one variant every
variant maps to the most common variant; singleton groups map to themselves.
Represented as an association list; the source passes distinct values, so
keys never repeat. -/
def createNormalizationMap (values : List Value) : List (Value × Value) :=
  (groupByKey values).flatMap (fun g =>
    if g.2.length > 1 then g.2.map (fun variant => (variant, getMostCommonVariant g.2))
    else [(g.2.headD Value.null, g.2.headD Value.null)])

/-- `Map.get` on the association-list representation. -/
def mapGet (m : List (Value × Value)) (v : Value) : Option Value :=
  (m.find? (fun p => p.1 == v)).map Prod.snd

/-- The per-value action of the normalization map in `normalizeLabels`:
non-null values present in the map are replaced by their canonical form. -/
def applyMap (m : List (Value × Value)) (v : Value) : Value :=
  if v == Value.null then v
  else
    match mapGet m v with
    | some nv => nv
    | none => v

/-- `identifyCategoricalColumns`: distinct-value share strictly below 10%,
with more than one and fewer than fifty distinct non-null values. -/
def identifyCategoricalColumns (data : Dataset) : List String :=
  if data.length = 0 then []
  else
    (columnsOf data).filter (fun column =>
      let values := (data.map (fun row => getField row column)).filter
        (fun v => !(v == Value.null))
      let uniqueCount := (uniqList values).length
      decide (mkRat uniqueCount values.length < mkRat 1 10 ∧
        1 < uniqueCount ∧ uniqueCount < 50))

/-- The normalization map built for one column, from the distinct non-null
observed values of the stage-entry data. -/
def mapFor (data : Dataset) (column : String) : List (Value × Value) :=
  createNormalizationMap (uniqList
    ((data.map (fun row => getField row column)).filter (fun v => !(v == Value.null))))

/-- The per-record body of the application loop in `normalizeLabels`: the
field is overwritten only when the mapped value differs. -/
def normalizeRow (m : List (Value × Value)) (column : String) (row : Record) : Record :=
  let originalValue := getField row column
  let nv := applyMap m originalValue
  if nv == originalValue then row else setField row column nv

/-- One column's pass of `normalizeLabels`: apply the column's map to every
record and add the number of changed cells. -/
def normalizeLabelsStep (data : Dataset) (acc : Dataset × ℕ) (column : String) :
    Dataset × ℕ :=
  (acc.1.map (normalizeRow (mapFor data column) column),
   acc.2 + acc.1.countP (fun row =>
     !(applyMap (mapFor data column) (getField row column) == getField row column)))

/-- `normalizeLabels` from dataProcessor.ts, returning the dataset and the
normalization count. -/
def normalizeLabels (data : Dataset) : Dataset × ℕ :=
  (identifyCategoricalColumns data).foldl (normalizeLabelsStep data) (data, 0)

/-- The canonical representative the map assigns within one group. -/
def canonInGroup (g : List Value) : Value :=
  if g.length > 1 then getMostCommonVariant g else g.headD Value.null

/-- The canonical value chosen for `v` among `values`. -/
def canonOf (values : List Value) (v : Value) : Value :=
  canonInGroup (values.filter (fun u => normKey u == normKey v))

theorem canonInGroup_mem (g : List Value) (h : g ≠ []) : canonInGroup g ∈ g := by
  unfold canonInGroup
  by_cases h1 : g.length > 1
  · rw [if_pos h1]
    exact getMostFrequent_mem g h
  · rw [if_neg h1]
    cases g with
    | nil => exact absurd rfl h
    | cons x xs => exact List.mem_cons_self x xs

theorem mem_group_of_mem (values : List Value) (v : Value) (h : v ∈ values) :
    v ∈ values.filter (fun u => normKey u == normKey v) := by
  rw [List.mem_filter]
  exact ⟨h, by simp⟩

theorem groupByKey_mem_struct (values : List Value) (g : String × List Value)
    (hg : g ∈ groupByKey values) :
    g.2 = values.filter (fun v => normKey v == g.1) ∧ g.2 ≠ [] := by
  unfold groupByKey at hg
  obtain ⟨k, hk, hke⟩ := List.mem_map.mp hg
  obtain ⟨v0, hv0, hv0k⟩ := List.mem_map.mp ((mem_uniqList _ k).mp hk)
  have hfne : values.filter (fun v => normKey v == k) ≠ [] := by
    intro habs
    have hvin : v0 ∈ values.filter (fun v => normKey v == k) := by
      rw [List.mem_filter]
      exact ⟨hv0, by rw [hv0k]; simp⟩
    rw [habs] at hvin
    exact (List.not_mem_nil v0) hvin
  constructor
  · rw [← hke]
  · rw [← hke]
    exact hfne

theorem createNormalizationMap_pair (values : List Value) (p : Value × Value)
    (hp : p ∈ createNormalizationMap values) :
    p.1 ∈ values ∧ p.2 = canonOf values p.1 := by
  unfold createNormalizationMap at hp
  obtain ⟨g, hg, hpg⟩ := List.mem_flatMap.mp hp
  obtain ⟨hgstruct, hgne⟩ := groupByKey_mem_struct values g hg
  have hkey : ∀ u ∈ g.2, normKey u = g.1 := by
    intro u hu
    rw [hgstruct] at hu
    exact beq_iff_eq.mp (List.mem_filter.mp hu).2
  have hmain : p.1 ∈ g.2 ∧ p.2 = canonInGroup g.2 := by
    by_cases h1 : g.2.length > 1
    · rw [if_pos h1] at hpg
      obtain ⟨variant, hvar, hpe⟩ := List.mem_map.mp hpg
      rw [← hpe]
      refine ⟨hvar, ?_⟩
      unfold canonInGroup
      rw [if_pos h1]
    · rw [if_neg h1] at hpg
      have hpe : p = (g.2.headD Value.null, g.2.headD Value.null) := by
        simpa using hpg
      have hhead : g.2.headD Value.null ∈ g.2 := by
        cases hcase : g.2 with
        | nil => exact absurd hcase hgne
        | cons x xs => simp
      rw [hpe]
      refine ⟨hhead, ?_⟩
      unfold canonInGroup
      rw [if_neg h1]
  obtain ⟨hmem, hcan⟩ := hmain
  have hp1 : p.1 ∈ values := by
    rw [hgstruct] at hmem
    exact (List.mem_filter.mp hmem).1
  refine ⟨hp1, ?_⟩
  rw [hcan]
  unfold canonOf
  have : values.filter (fun v => normKey v == g.1) =
      values.filter (fun u => normKey u == normKey p.1) := by
    rw [hkey p.1 hmem]
  rw [hgstruct, this]

theorem createNormalizationMap_key_exists (values : List Value) (v : Value)
    (h : v ∈ values) : ∃ p ∈ createNormalizationMap values, p.1 = v := by
  have hk : normKey v ∈ uniqList (values.map normKey) :=
    (mem_uniqList _ _).mpr (List.mem_map_of_mem normKey h)
  have hg : (normKey v, values.filter (fun u => normKey u == normKey v)) ∈
      groupByKey values := by
    unfold groupByKey
    refine List.mem_map.mpr ⟨normKey v, hk, ?_⟩
    rfl
  have hvg : v ∈ values.filter (fun u => normKey u == normKey v) :=
    mem_group_of_mem values v h
  set g2 := values.filter (fun u => normKey u == normKey v) with hg2
  by_cases h1 : g2.length > 1
  · refine ⟨(v, getMostCommonVariant g2), ?_, rfl⟩
    unfold createNormalizationMap
    refine List.mem_flatMap.mpr ⟨(normKey v, g2), hg, ?_⟩
    rw [if_pos h1]
    exact List.mem_map_of_mem _ hvg
  · have hsingle : g2 = [v] := by
      have hle : g2.length ≤ 1 := by omega
      cases hcase : g2 with
      | nil =>
        rw [hcase] at hvg
        exact absurd hvg (List.not_mem_nil v)
      | cons x xs =>
        rw [hcase] at hle hvg
        have hxs : xs = [] := by
          simp only [List.length_cons] at hle
          exact List.length_eq_zero.mp (by omega)
        rw [hxs] at hvg ⊢
        rcases List.mem_singleton.mp hvg with h
        rw [h]
    refine ⟨(v, v), ?_, rfl⟩
    unfold createNormalizationMap
    refine List.mem_flatMap.mpr ⟨(normKey v, g2), hg, ?_⟩
    rw [if_neg h1, hsingle]
    simp

/-- `Map.get` returns the canonical form of every value the map was built
from. -/
theorem mapGet_eq_canonOf (values : List Value) (v : Value) (h : v ∈ values) :
    mapGet (createNormalizationMap values) v = some (canonOf values v) := by
  obtain ⟨p0, hp0, hp0k⟩ := createNormalizationMap_key_exists values v h
  have hsome : ((createNormalizationMap values).find? (fun p => p.1 == v)).isSome := by
    rw [List.find?_isSome]
    exact ⟨p0, hp0, by rw [hp0k]; simp⟩
  obtain ⟨p, hfind⟩ := Option.isSome_iff_exists.mp hsome
  have hpred := List.find?_some hfind
  have hpv : p.1 = v := beq_iff_eq.mp (by simpa using hpred)
  have hpm : p ∈ createNormalizationMap values := List.mem_of_find?_eq_some hfind
  have hcan := (createNormalizationMap_pair values p hpm).2
  unfold mapGet
  rw [hfind, Option.map_some', hcan, hpv]

theorem canonOf_mem (values : List Value) (v : Value) (h : v ∈ values) :
    canonOf values v ∈ values ∧ normKey (canonOf values v) = normKey v := by
  have hvg := mem_group_of_mem values v h
  have hne : values.filter (fun u => normKey u == normKey v) ≠ [] := by
    intro habs
    rw [habs] at hvg
    exact (List.not_mem_nil v) hvg
  have hcm := canonInGroup_mem _ hne
  have := List.mem_filter.mp hcm
  exact ⟨this.1, beq_iff_eq.mp this.2⟩

theorem mapGet_canon_fix (values : List Value) (v : Value) (h : v ∈ values) :
    mapGet (createNormalizationMap values) (canonOf values v) = some (canonOf values v) := by
  obtain ⟨hcmem, hckey⟩ := canonOf_mem values v h
  have hstep : values.filter (fun u => normKey u == normKey (canonOf values v)) =
      values.filter (fun u => normKey u == normKey v) := by
    rw [hckey]
  calc mapGet (createNormalizationMap values) (canonOf values v)
      = some (canonOf values (canonOf values v)) := mapGet_eq_canonOf values _ hcmem
    _ = some (canonOf values v) := by
        show some (canonInGroup
          (values.filter (fun u => normKey u == normKey (canonOf values v)))) = _
        rw [hstep]
        rfl

theorem applyMap_of_null (m : List (Value × Value)) (v : Value)
    (hv : (v == Value.null) = true) : applyMap m v = v := by
  unfold applyMap
  rw [if_pos hv]

theorem applyMap_of_none (m : List (Value × Value)) (v : Value)
    (hv : (v == Value.null) = false) (h : mapGet m v = none) : applyMap m v = v := by
  unfold applyMap
  rw [if_neg (by rw [hv]; simp), h]

theorem applyMap_of_some (m : List (Value × Value)) (v w : Value)
    (hv : (v == Value.null) = false) (h : mapGet m v = some w) : applyMap m v = w := by
  unfold applyMap
  rw [if_neg (by rw [hv]; simp), h]

/-- Applying a normalization map twice equals applying it once: the canonical
value of each group is a fixed point of the map. -/
theorem applyMap_idem (values : List Value) (hnull : Value.null ∉ values) (v : Value) :
    applyMap (createNormalizationMap values) (applyMap (createNormalizationMap values) v) =
      applyMap (createNormalizationMap values) v := by
  by_cases hv : (v == Value.null) = true
  · have h1 := applyMap_of_null (createNormalizationMap values) v hv
    rw [h1]
    exact h1
  · have hvf : (v == Value.null) = false := Bool.eq_false_iff.mpr hv
    cases hget : mapGet (createNormalizationMap values) v with
    | none =>
      have h1 := applyMap_of_none (createNormalizationMap values) v hvf hget
      rw [h1]
      exact h1
    | some w =>
      obtain ⟨p, hfind, hpw⟩ := Option.map_eq_some'.mp hget
      have hpm : p ∈ createNormalizationMap values := List.mem_of_find?_eq_some hfind
      obtain ⟨hp1, hp2⟩ := createNormalizationMap_pair values p hpm
      have hwmem : w ∈ values := by
        rw [← hpw, hp2]
        exact (canonOf_mem values p.1 hp1).1
      have hwnn : (w == Value.null) = false := by
        rw [beq_eq_false_iff_ne]
        intro habs
        rw [habs] at hwmem
        exact hnull hwmem
      have hfix : mapGet (createNormalizationMap values) w = some w := by
        rw [← hpw, hp2]
        exact mapGet_canon_fix values p.1 hp1
      rw [applyMap_of_some _ v w hvf hget, applyMap_of_some _ w w hwnn hfix]

theorem null_not_mem_colValues (data : Dataset) (c : String) :
    Value.null ∉ uniqList ((data.map (fun row => getField row c)).filter
      (fun v => !(v == Value.null))) := by
  intro h
  have h1 := (mem_uniqList _ _).mp h
  have h2 := (List.mem_filter.mp h1).2
  simp at h2

theorem getField_normalizeRow (m : List (Value × Value)) (c c' : String) (row : Record) :
    getField (normalizeRow m c row) c' =
      if c' = c then applyMap m (getField row c) else getField row c' := by
  simp only [normalizeRow]
  by_cases h : (applyMap m (getField row c) == getField row c) = true
  · rw [if_pos h]
    by_cases hc : c' = c
    · rw [if_pos hc, hc]
      exact (beq_iff_eq.mp h).symm
    · rw [if_neg hc]
  · rw [if_neg h, getField_setField]

theorem normalizeLabelsStep_length (data : Dataset) (acc : Dataset × ℕ) (c : String) :
    ((normalizeLabelsStep data acc c).1).length = acc.1.length := by
  simp [normalizeLabelsStep]

theorem norm_fold_length (data : Dataset) (cols : List String) (acc : Dataset × ℕ) :
    ((cols.foldl (normalizeLabelsStep data) acc).1).length = acc.1.length := by
  induction cols generalizing acc with
  | nil => rfl
  | cons c rest ih =>
    simp only [List.foldl_cons]
    rw [ih, normalizeLabelsStep_length]

theorem getD_map_record (f : Record → Record) (l : Dataset) (i : ℕ) (hi : i < l.length) :
    (l.map f).getD i [] = f (l.getD i []) := by
  rw [List.getD_eq_getElem _ [] (by simpa using hi), List.getD_eq_getElem l [] hi,
    List.getElem_map]

theorem norm_fold_getD (data : Dataset) (cols : List String) (acc : Dataset × ℕ)
    (hlen : acc.1.length = data.length) (i : ℕ) (hi : i < data.length) (c : String) :
    getField ((cols.foldl (normalizeLabelsStep data) acc).1.getD i []) c =
      if c ∈ cols then applyMap (mapFor data c) (getField (acc.1.getD i []) c)
      else getField (acc.1.getD i []) c := by
  induction cols generalizing acc with
  | nil => simp
  | cons c0 rest ih =>
    simp only [List.foldl_cons]
    rw [ih _ (by rw [normalizeLabelsStep_length]; exact hlen)]
    have hstep : getField ((normalizeLabelsStep data acc c0).1.getD i []) c =
        if c = c0 then applyMap (mapFor data c0) (getField (acc.1.getD i []) c0)
        else getField (acc.1.getD i []) c := by
      show getField ((acc.1.map (normalizeRow (mapFor data c0) c0)).getD i []) c = _
      rw [getD_map_record _ _ i (by omega), getField_normalizeRow]
    by_cases hcrest : c ∈ rest
    · rw [if_pos hcrest, if_pos (List.mem_cons_of_mem _ hcrest), hstep]
      by_cases hc0 : c = c0
      · rw [if_pos hc0, hc0]
        exact applyMap_idem _ (null_not_mem_colValues data c0) _
      · rw [if_neg hc0]
    · rw [if_neg hcrest, hstep]
      by_cases hc0 : c = c0
      · rw [if_pos hc0, if_pos (by rw [hc0]; exact List.mem_cons_self c0 rest), hc0]
      · rw [if_neg hc0, if_neg ?hnot]
        case hnot =>
          intro hmem
          rcases List.mem_cons.mp hmem with h | h
          · exact hc0 h
          · exact hcrest h

theorem normalizeLabels_length (data : Dataset) :
    (normalizeLabels data).1.length = data.length := by
  unfold normalizeLabels
  rw [norm_fold_length]

/-- Cell-level characterization of `normalizeLabels`: a cell of a categorical
column receives the column map's canonical value, every other cell is
untouched. -/
theorem normalizeLabels_getD (data : Dataset) (i : ℕ) (hi : i < data.length) (c : String) :
    getField ((normalizeLabels data).1.getD i []) c =
      if c ∈ identifyCategoricalColumns data then
        applyMap (mapFor data c) (getField (data.getD i []) c)
      else getField (data.getD i []) c := by
  unfold normalizeLabels
  exact norm_fold_getD data _ (data, 0) rfl i hi c

theorem keys_normalizeRow (m : List (Value × Value)) (c : String) (row : Record)
    (hc : c ∈ row.map Prod.fst) :
    (normalizeRow m c row).map Prod.fst = row.map Prod.fst := by
  simp only [normalizeRow]
  by_cases h : (applyMap m (getField row c) == getField row c) = true
  · rw [if_pos h]
  · rw [if_neg h]
    apply keys_setField
    rw [List.any_eq_true]
    obtain ⟨p, hp, hpe⟩ := List.mem_map.mp hc
    exact ⟨p, hp, by rw [hpe]; simp⟩

theorem norm_fold_columnsOf (data : Dataset) (cols : List String) (acc : Dataset × ℕ)
    (hcols : ∀ c ∈ cols, c ∈ columnsOf acc.1) :
    columnsOf ((cols.foldl (normalizeLabelsStep data) acc).1) = columnsOf acc.1 := by
  induction cols generalizing acc with
  | nil => rfl
  | cons c0 rest ih =>
    simp only [List.foldl_cons]
    have hstep_cols : columnsOf ((normalizeLabelsStep data acc c0).1) = columnsOf acc.1 := by
      show columnsOf (acc.1.map (normalizeRow (mapFor data c0) c0)) = columnsOf acc.1
      cases hacc : acc.1 with
      | nil => rfl
      | cons r0 rs =>
        show columnsOf (normalizeRow (mapFor data c0) c0 r0 :: rs.map _) =
          columnsOf (r0 :: rs)
        unfold columnsOf
        simp only [List.headD_cons]
        apply keys_normalizeRow
        have h0 := hcols c0 (List.mem_cons_self c0 rest)
        rw [hacc] at h0
        exact h0
    rw [ih (normalizeLabelsStep data acc c0) ?_, hstep_cols]
    intro c hc
    rw [hstep_cols]
    exact hcols c (List.mem_cons_of_mem _ hc)

theorem catCols_subset_columnsOf (data : Dataset) (c : String)
    (h : c ∈ identifyCategoricalColumns data) : c ∈ columnsOf data := by
  unfold identifyCategoricalColumns at h
  by_cases h0 : data.length = 0
  · rw [if_pos h0] at h
    exact absurd h (List.not_mem_nil c)
  · rw [if_neg h0] at h
    exact List.mem_of_mem_filter h

theorem columnsOf_normalizeLabels (data : Dataset) :
    columnsOf ((normalizeLabels data).1) = columnsOf data := by
  unfold normalizeLabels
  exact norm_fold_columnsOf data _ (data, 0)
    (fun c hc => catCols_subset_columnsOf data c hc)

/-- Column-values view of `normalizeLabels`: a categorical column's value
list is the map-image of the input's, any other column is unchanged. -/
theorem normalizeLabels_column_values (data : Dataset) (c : String) :
    ((normalizeLabels data).1.map (fun row => getField row c)) =
      (if c ∈ identifyCategoricalColumns data then
        (data.map (fun row => getField row c)).map (applyMap (mapFor data c))
      else data.map (fun row => getField row c)) := by
  by_cases hc : c ∈ identifyCategoricalColumns data
  · rw [if_pos hc]
    apply List.ext_getElem
    · simp [normalizeLabels_length]
    · intro i h1 h2
      rw [List.getElem_map, List.getElem_map, List.getElem_map]
      have hi : i < data.length := by
        have := normalizeLabels_length data
        simp only [List.length_map] at h1
        omega
      rw [← List.getD_eq_getElem ((normalizeLabels data).1) [] (by simpa using h1),
        ← List.getD_eq_getElem data [] hi,
        normalizeLabels_getD data i hi c, if_pos hc]
  · rw [if_neg hc]
    apply List.ext_getElem
    · simp [normalizeLabels_length]
    · intro i h1 h2
      rw [List.getElem_map, List.getElem_map]
      have hi : i < data.length := by
        have := normalizeLabels_length data
        simp only [List.length_map] at h1
        omega
      rw [← List.getD_eq_getElem ((normalizeLabels data).1) [] (by simpa using h1),
        ← List.getD_eq_getElem data [] hi,
        normalizeLabels_getD data i hi c, if_neg hc]

theorem mem_catCols_iff_of_values_eq (d1 d2 : Dataset) (c : String)
    (hlen0 : d1.length = 0 ↔ d2.length = 0)
    (hcols : columnsOf d1 = columnsOf d2)
    (hvals : d1.map (fun row => getField row c) = d2.map (fun row => getField row c)) :
    (c ∈ identifyCategoricalColumns d1 ↔ c ∈ identifyCategoricalColumns d2) := by
  unfold identifyCategoricalColumns
  by_cases h1 : d1.length = 0
  · rw [if_pos h1, if_pos (hlen0.mp h1)]
  · rw [if_neg h1, if_neg (fun h => h1 (hlen0.mpr h))]
    rw [List.mem_filter, List.mem_filter, hcols, hvals]

theorem canonOf_congr (values : List Value) (u u' : Value) (h : normKey u = normKey u') :
    canonOf values u = canonOf values u' := by
  unfold canonOf
  rw [h]

theorem singleton_of_nodup_all_eq (l : List Value) (v : Value) (hnd : l.Nodup)
    (hm : v ∈ l) (hall : ∀ w ∈ l, w = v) : l = [v] := by
  cases l with
  | nil => exact absurd hm (List.not_mem_nil v)
  | cons x xs =>
    have hx : x = v := hall x (List.mem_cons_self x xs)
    have hxs : xs = [] := by
      by_contra hne
      obtain ⟨y, hy⟩ := List.exists_mem_of_ne_nil xs hne
      have hyv : y = v := hall y (List.mem_cons_of_mem x hy)
      have hxnot : x ∉ xs := (List.nodup_cons.mp hnd).1
      apply hxnot
      rw [hx, ← hyv]
      exact hy
    rw [hx, hxs]

theorem canonInGroup_singleton (v : Value) : canonInGroup [v] = v := by
  unfold canonInGroup
  rw [if_neg (by simp)]
  rfl

/-- On the output of `normalizeLabels`, a categorical column's normalization
map is the identity on every value the column contains. -/
theorem pass2_map_identity (data : Dataset) (c : String)
    (hc : c ∈ identifyCategoricalColumns ((normalizeLabels data).1)) (v : Value)
    (hv : v ∈ uniqList (((normalizeLabels data).1.map (fun row => getField row c)).filter
      (fun u => !(u == Value.null)))) :
    applyMap (mapFor ((normalizeLabels data).1) c) v = v := by
  by_cases hcd : c ∈ identifyCategoricalColumns data
  · -- the column was normalized in the first pass: all of its non-null values
    -- are canonical forms, and distinct canonical forms have distinct keys
    set vals1 := (data.map (fun row => getField row c)).filter (fun u => !(u == Value.null))
      with hvals1
    set U := uniqList vals1 with hU
    set vals2 := (((normalizeLabels data).1.map (fun row => getField row c)).filter
      (fun u => !(u == Value.null))) with hvals2
    have hcanon : ∀ w ∈ vals2, ∃ u ∈ U, w = canonOf U u := by
      intro w hw
      obtain ⟨hwmem, hwnn⟩ := List.mem_filter.mp hw
      rw [normalizeLabels_column_values data c, if_pos hcd] at hwmem
      obtain ⟨u0, hu0, hu0e⟩ := List.mem_map.mp hwmem
      by_cases hun : (u0 == Value.null) = true
      · rw [applyMap_of_null _ _ hun] at hu0e
        rw [← hu0e] at hwnn
        rw [beq_iff_eq.mp hun] at hwnn
        simp at hwnn
      · have hu0f : (u0 == Value.null) = false := Bool.eq_false_iff.mpr hun
        have hu0U : u0 ∈ U := by
          rw [hU, mem_uniqList, hvals1, List.mem_filter]
          exact ⟨hu0, by rw [hu0f]; rfl⟩
        refine ⟨u0, hu0U, ?_⟩
        rw [← hu0e]
        have := mapGet_eq_canonOf U u0 hu0U
        exact applyMap_of_some _ u0 _ hu0f this
    have hkeyinj : ∀ w ∈ vals2, ∀ w' ∈ vals2, normKey w = normKey w' → w = w' := by
      intro w hw w' hw' hkey
      obtain ⟨u, huU, hue⟩ := hcanon w hw
      obtain ⟨u', huU', hue'⟩ := hcanon w' hw'
      have hkw : normKey w = normKey u := by rw [hue]; exact (canonOf_mem U u huU).2
      have hkw' : normKey w' = normKey u' := by rw [hue']; exact (canonOf_mem U u' huU').2
      rw [hue, hue']
      exact canonOf_congr U u u' (by rw [← hkw, ← hkw', hkey])
    -- v's group within the distinct values of the column is the singleton [v]
    have hvv : v ∈ vals2 := (mem_uniqList _ _).mp hv
    have hgroup : (uniqList vals2).filter (fun u => normKey u == normKey v) = [v] := by
      apply singleton_of_nodup_all_eq
      · exact List.Nodup.filter _ (uniqList_nodup vals2)
      · rw [List.mem_filter]
        exact ⟨hv, by simp⟩
      · intro w hwf
        obtain ⟨hwu, hwk⟩ := List.mem_filter.mp hwf
        exact hkeyinj w ((mem_uniqList _ _).mp hwu) v hvv (beq_iff_eq.mp hwk)
    have hvnn : (v == Value.null) = false := by
      have := (List.mem_filter.mp hvv).2
      simpa using this
    have hget : mapGet (createNormalizationMap (uniqList vals2)) v = some v := by
      rw [mapGet_eq_canonOf (uniqList vals2) v hv]
      unfold canonOf
      rw [hgroup, canonInGroup_singleton]
    exact applyMap_of_some _ v v hvnn hget
  · -- the column was untouched, so it cannot have become categorical
    exfalso
    apply hcd
    have hvals : (normalizeLabels data).1.map (fun row => getField row c) =
        data.map (fun row => getField row c) := by
      rw [normalizeLabels_column_values data c, if_neg hcd]
    exact (mem_catCols_iff_of_values_eq _ _ c
      (by rw [normalizeLabels_length]) (columnsOf_normalizeLabels data) hvals).mp hc

/-- C9: label normalization is idempotent — a second pass changes no value
and reports a normalization count of zero. -/
theorem normalizeLabels_idempotent (data : Dataset) :
    normalizeLabels ((normalizeLabels data).1) = ((normalizeLabels data).1, 0) := by
  have hstep_id : ∀ c ∈ identifyCategoricalColumns ((normalizeLabels data).1),
      ∀ row ∈ (normalizeLabels data).1,
      applyMap (mapFor ((normalizeLabels data).1) c) (getField row c) = getField row c := by
    intro c hc row hrow
    by_cases hn : (getField row c == Value.null) = true
    · exact applyMap_of_null _ _ hn
    · apply pass2_map_identity data c hc
      rw [mem_uniqList, List.mem_filter]
      refine ⟨List.mem_map_of_mem _ hrow, ?_⟩
      rw [Bool.eq_false_iff.mpr hn]
      rfl
  have hfold : ∀ cols : List String,
      (∀ c ∈ cols, c ∈ identifyCategoricalColumns ((normalizeLabels data).1)) →
      cols.foldl (normalizeLabelsStep ((normalizeLabels data).1))
        ((normalizeLabels data).1, 0) = ((normalizeLabels data).1, 0) := by
    intro cols hsub
    induction cols with
    | nil => rfl
    | cons c0 rest ih =>
      simp only [List.foldl_cons]
      have hc0 := hsub c0 (List.mem_cons_self c0 rest)
      have hrow_id : ∀ row ∈ (normalizeLabels data).1,
          normalizeRow (mapFor ((normalizeLabels data).1) c0) c0 row = row := by
        intro row hrow
        simp only [normalizeRow]
        rw [if_pos (beq_iff_eq.mpr (hstep_id c0 hc0 row hrow))]
      have hstep : normalizeLabelsStep ((normalizeLabels data).1)
          ((normalizeLabels data).1, 0) c0 = ((normalizeLabels data).1, 0) := by
        unfold normalizeLabelsStep
        refine Prod.ext ?_ ?_
        · show (normalizeLabels data).1.map _ = (normalizeLabels data).1
          calc (normalizeLabels data).1.map (normalizeRow _ c0)
              = (normalizeLabels data).1.map id := List.map_congr_left hrow_id
            _ = (normalizeLabels data).1 := List.map_id _
        · show 0 + (normalizeLabels data).1.countP _ = 0
          rw [Nat.zero_add, List.countP_eq_zero]
          intro row hrow
          rw [hstep_id c0 hc0 row hrow]
          simp
      rw [hstep]
      exact ih (fun c hc => hsub c (List.mem_cons_of_mem _ hc))
  exact hfold (identifyCategoricalColumns ((normalizeLabels data).1)) (fun c hc => hc)

theorem canonInGroup_of_nodup (g : List Value) (h : g.Nodup) :
    canonInGroup g = g.headD Value.null := by
  unfold canonInGroup
  by_cases h1 : g.length > 1
  · rw [if_pos h1]
    exact getMostFrequent_of_nodup g h
  · rw [if_neg h1]

/-- C5, counterexample: in a categorical column holding one `"abc"` and
twenty-nine `"ABC"`, the literal `"ABC"` is by far the most frequent in the
column, yet the normalization map sends `"ABC"` to `"abc"` — the map is built
from the distinct values, where every variant counts once, so the
first-encountered variant always wins. -/
theorem createNormalizationMap_frequency_cex :
    identifyCategoricalColumns
        (([("g", Value.str "abc")] : Record) :: List.replicate 29 [("g", Value.str "ABC")])
      = ["g"] ∧
    mapGet (mapFor
        (([("g", Value.str "abc")] : Record) :: List.replicate 29 [("g", Value.str "ABC")])
        "g") (Value.str "ABC") = some (Value.str "abc") ∧
    ((([("g", Value.str "abc")] : Record) :: List.replicate 29 [("g", Value.str "ABC")]).map
        (fun row => getField row "g")).count (Value.str "ABC") = 29 ∧
    ((([("g", Value.str "abc")] : Record) :: List.replicate 29 [("g", Value.str "ABC")]).map
        (fun row => getField row "g")).count (Value.str "abc") = 1 := by
  decide

/-- C5 (amended): the NormalizationMap groups the column's distinct observed
values by `lowercase(trim(value))`, and every member of a group maps to the
group's FIRST-ENCOUNTERED distinct variant in column order — the map is built
from the distinct values, each counting once, so the literal frequency in the
column plays no role; in particular `["male","Male","MALE","female"]` yields
exactly two groups with canonicals `"male"` and `"female"`. -/
theorem createNormalizationMap_firstVariant_amended :
    (∀ (colVals : List Value) (v : Value),
      v ∈ uniqList (colVals.filter (fun u => !(u == Value.null))) →
      mapGet (createNormalizationMap
          (uniqList (colVals.filter (fun u => !(u == Value.null))))) v
        = some (((uniqList (colVals.filter (fun u => !(u == Value.null)))).filter
            (fun u => normKey u == normKey v)).headD Value.null)) ∧
    ((groupByKey (uniqList (([Value.str "male", Value.str "Male", Value.str "MALE",
        Value.str "female"] : List Value).filter (fun u => !(u == Value.null))))).length = 2 ∧
      mapGet (createNormalizationMap (uniqList (([Value.str "male", Value.str "Male",
        Value.str "MALE", Value.str "female"] : List Value).filter
          (fun u => !(u == Value.null))))) (Value.str "MALE") = some (Value.str "male") ∧
      mapGet (createNormalizationMap (uniqList (([Value.str "male", Value.str "Male",
        Value.str "MALE", Value.str "female"] : List Value).filter
          (fun u => !(u == Value.null))))) (Value.str "female")
        = some (Value.str "female")) := by
  constructor
  · intro colVals v hv
    rw [mapGet_eq_canonOf _ v hv]
    congr 1
    unfold canonOf
    exact canonInGroup_of_nodup _ (List.Nodup.filter _ (uniqList_nodup _))
  · exact ⟨by decide, by decide, by decide⟩

/-- Witness for C5 at a concrete column. -/
theorem createNormalizationMap_firstVariant_amended_witness :
    (Value.str "x") ∈ uniqList (([Value.str "x"] : List Value).filter
      (fun u => !(u == Value.null))) ∧
    mapGet (createNormalizationMap (uniqList (([Value.str "x"] : List Value).filter
        (fun u => !(u == Value.null))))) (Value.str "x")
      = some (((uniqList (([Value.str "x"] : List Value).filter
          (fun u => !(u == Value.null)))).filter
            (fun u => normKey u == normKey (Value.str "x"))).headD Value.null) :=
  ⟨by decide, createNormalizationMap_firstVariant_amended.1 [Value.str "x"]
    (Value.str "x") (by decide)⟩

/-! Class balancing (`balanceClasses`, `generateSyntheticSamples`).
`Math.random()` is a tape of rationals in `[0, 1)` consumed left to right;
the Box-Muller term `z0 * stdDev` — the only irrational-valued expression of
the pipeline — is the explicit `noise` parameter. -/

/-- Severity levels of a run-report entry. -/
inductive Severity where
  | low
  | medium
  | high
deriving DecidableEq, Repr

/-- A run-report entry; the free-text message of the source is not modeled —
the claims observe only the type tag and the severity. -/
structure Warning where
  wtype : String
  severity : Severity
deriving DecidableEq, Repr

/-- The `Math.random()` tape with its read position. -/
structure Rng where
  tape : ℕ → ℚ
  pos : ℕ

/-- One `Math.random()` draw. -/
def Rng.next (r : Rng) : ℚ × Rng := (r.tape r.pos, ⟨r.tape, r.pos + 1⟩)

/-- Exact multiplication of a rational by a natural number. -/
def qMulNat (a : ℚ) (n : ℕ) : ℚ := mkRat (a.num * n) a.den

/-- `Math.round` (half toward positive infinity). -/
def jsRound (q : ℚ) : ℤ := jsFloor (qAdd q (mkRat 1 2))

/-- `Math.floor(Math.random() * len)`. -/
def randIndex (r : Rng) (len : ℕ) : ℕ × Rng :=
  let p := r.next
  ((jsFloor (qMulNat p.1 len)).toNat, p.2)

/-- `generateSyntheticNumeric`: mean of the parseable numbers plus the
Box-Muller noise term, rounded to two decimals; zero (before any draw) when
the class has no parseable number. -/
def generateSyntheticNumeric (noise : List ℚ → ℚ → ℚ → ℚ) (data : List Value) (r : Rng) :
    Value × Rng :=
  let numbers := data.filterMap jsToNum
  if numbers.length = 0 then (Value.num 0, r)
  else
    let mean := qDivNat (numbers.foldl qAdd 0) numbers.length
    let p1 := r.next
    let p2 := p1.2.next
    (Value.num (mkRat (jsRound (qMulNat (qAdd mean (noise numbers p1.1 p2.1)) 100)) 100), p2.2)

/-- `generateSyntheticCategorical`: uniform draw from the non-missing
observed values (an out-of-range index, as in JS, yields undefined). -/
def generateSyntheticCategorical (data : List Value) (r : Rng) : Value × Rng :=
  let nonMissingData := data.filter (fun v => !isMissing v)
  let p := randIndex r nonMissingData.length
  (nonMissingData.getD p.1 Value.null, p.2)

/-- JS `split(' ')` (empty fragments kept). -/
def splitSpaceAux : List Char → List Char → List String
  | [], cur => [String.mk cur.reverse]
  | ch :: rest, cur =>
    if ch == ' ' then String.mk cur.reverse :: splitSpaceAux rest []
    else splitSpaceAux rest (ch :: cur)

/-- JS `split(' ')` on a string. -/
def splitSpace (s : String) : List String := splitSpaceAux s.data []

/-- JS `join(' ')`. -/
def joinSpace : List String → String
  | [] => ""
  | [s] => s
  | s :: rest => s ++ " " ++ joinSpace rest

/-- Draw `n` words uniformly (with replacement) from the vocabulary. -/
def drawWords (vocab : List String) : ℕ → Rng → List String × Rng
  | 0, r => ([], r)
  | n + 1, r =>
    let p := randIndex r vocab.length
    let rest := drawWords vocab n p.2
    (vocab.getD p.1 "" :: rest.1, rest.2)

/-- `generateSyntheticText`: with fewer than three distinct tokens longer
than two characters, return a random existing value verbatim; otherwise join
2-5 random vocabulary tokens. -/
def generateSyntheticText (data : List Value) (r : Rng) : Value × Rng :=
  let nonMissingData := data.filterMap (fun v => match v with
    | Value.str s => if isMissing (Value.str s) then none else some s
    | _ => none)
  if nonMissingData.length = 0 then (Value.str "Generated text", r)
  else
    let words := (splitSpace (joinSpace nonMissingData)).filter (fun w => w.length > 2)
    let uniqueWords := uniqList words
    if uniqueWords.length < 3 then
      let p := randIndex r nonMissingData.length
      (Value.str (nonMissingData.getD p.1 ""), p.2)
    else
      let p := r.next
      let numWords := min 5 (max 2 ((jsFloor (qMulNat p.1 4)).toNat + 2))
      let dw := drawWords uniqueWords numWords p.2
      (Value.str (joinSpace dw.1), dw.2)

/-- One synthetic record: a base sample is drawn (and, as in the source,
never used), then each column generates a value by its inferred type. -/
def generateOneSample (noise : List ℚ → ℚ → ℚ → ℚ) (classData : Dataset) (r : Rng) :
    Record × Rng :=
  let pb := randIndex r classData.length
  let columns := (classData.headD []).map Prod.fst
  columns.foldl (fun (acc : Record × Rng) column =>
    let columnData := classData.map (fun row => getField row column)
    match inferColumnType columnData with
    | ColumnType.numeric =>
      let p := generateSyntheticNumeric noise columnData acc.2
      (acc.1 ++ [(column, p.1)], p.2)
    | ColumnType.categorical =>
      let p := generateSyntheticCategorical columnData acc.2
      (acc.1 ++ [(column, p.1)], p.2)
    | ColumnType.text =>
      let p := generateSyntheticText columnData acc.2
      (acc.1 ++ [(column, p.1)], p.2)) ([], pb.2)

def generateSyntheticSamplesAux (noise : List ℚ → ℚ → ℚ → ℚ) (classData : Dataset) :
    ℕ → Rng → Dataset × Rng
  | 0, r => ([], r)
  | n + 1, r =>
    let p := generateOneSample noise classData r
    let rest := generateSyntheticSamplesAux noise classData n p.2
    (p.1 :: rest.1, rest.2)

/-- `generateSyntheticSamples`: `count` synthetic records, none when the
class has no records. -/
def generateSyntheticSamples (noise : List ℚ → ℚ → ℚ → ℚ) (classData : Dataset)
    (count : ℕ) (r : Rng) : Dataset × Rng :=
  if classData.length = 0 then ([], r)
  else generateSyntheticSamplesAux noise classData count r

/-- `getClassDistribution`: stringified target value to record count, keys in
first-occurrence order. -/
def getClassDistribution (data : Dataset) (targetColumn : String) : List (String × ℕ) :=
  (uniqList (data.map (fun row => jsToString (getField row targetColumn)))).map
    (fun name => (name,
      (data.filter (fun row => jsToString (getField row targetColumn) == name)).length))

/-- `Math.max(...Object.values(classDistribution))`. -/
def maxClassSizeOf (data : Dataset) (targetColumn : String) : ℕ :=
  ((getClassDistribution data targetColumn).map Prod.snd).foldl max 0

/-- The classes whose count is strictly below `0.8 * maxClassSize`. -/
def minorityClassesOf (data : Dataset) (targetColumn : String) : List String :=
  ((getClassDistribution data targetColumn).filter
    (fun p => mkRat p.2 1 < qMulNat (mkRat 4 5) (maxClassSizeOf data targetColumn))).map
    Prod.fst

/-- Per-minority-class body of the balancing loop.  Note the strict `===`
comparison of the raw cell value with the STRINGIFIED class name: rows whose
target cell is not a string never match. -/
def balanceFoldStep (noise : List ℚ → ℚ → ℚ → ℚ) (data : Dataset) (targetColumn : String)
    (st : Dataset × Rng) (className : String) : Dataset × Rng :=
  let classData := data.filter (fun row => getField row targetColumn == Value.str className)
  let samplesNeeded : ℤ :=
    jsFloor (qMulNat (mkRat 4 5) (maxClassSizeOf data targetColumn)) - classData.length
  if samplesNeeded > 0 then
    let p := generateSyntheticSamples noise classData samplesNeeded.toNat st.2
    (st.1 ++ p.1, p.2)
  else st

/-- `balanceClasses` from dataProcessor.ts.  The precondition check is JS
truthiness of some target cell, the warning carries medium severity; an
already-balanced distribution yields a low-severity info entry. -/
def balanceClasses (noise : List ℚ → ℚ → ℚ → ℚ) (data : Dataset) (targetColumn : String)
    (rng : Rng) : Dataset × List Warning × Rng :=
  if !(data.any (fun row => truthy (getField row targetColumn))) then
    (data, [⟨"CLASS_BALANCE_WARNING", Severity.medium⟩], rng)
  else if (minorityClassesOf data targetColumn).length = 0 then
    (data, [⟨"CLASS_BALANCE_INFO", Severity.low⟩], rng)
  else
    let st := (minorityClassesOf data targetColumn).foldl
      (balanceFoldStep noise data targetColumn) (data, rng)
    (st.1, [⟨"CLASS_BALANCE_COMPLETE", Severity.low⟩], st.2)

/-- The concrete noise instantiation used for concrete runs. -/
def zeroNoise : List ℚ → ℚ → ℚ → ℚ := fun _ _ _ => 0

/-- The concrete all-zeros random tape used for concrete runs. -/
def zeroRng : Rng := ⟨fun _ => 0, 0⟩

theorem balance_fold_append (noise : List ℚ → ℚ → ℚ → ℚ) (data : Dataset) (t : String)
    (cls : List String) (st : Dataset × Rng) (h : ∃ e, st.1 = data ++ e) :
    ∃ e, ((cls.foldl (balanceFoldStep noise data t) st).1) = data ++ e := by
  induction cls generalizing st with
  | nil => exact h
  | cons c rest ih =>
    simp only [List.foldl_cons]
    apply ih
    obtain ⟨e, he⟩ := h
    simp only [balanceFoldStep]
    by_cases hs : (jsFloor (qMulNat (mkRat 4 5) (maxClassSizeOf data t)) -
        ((data.filter (fun row => getField row t == Value.str c)).length : ℤ)) > 0
    · rw [if_pos hs]
      exact ⟨e ++ _, by rw [he, List.append_assoc]⟩
    · rw [if_neg hs]
      exact ⟨e, he⟩

/-- C6, counterexample: with numeric class labels the strict `===` comparison
of raw cells against the stringified class name matches no row, so the
minority class `"2"` (count 1, `floor(0.8 * 5) = 4`) receives no synthetic
records at all and stays below the claimed floor. -/
theorem balanceClasses_numeric_label_cex :
    (balanceClasses zeroNoise
        (List.replicate 5 [("t", Value.num 1)] ++ [[("t", Value.num 2)]]) "t" zeroRng).1 =
      List.replicate 5 [("t", Value.num 1)] ++ [[("t", Value.num 2)]] ∧
    getClassDistribution
        (List.replicate 5 [("t", Value.num 1)] ++ [[("t", Value.num 2)]]) "t" =
      [("1", 5), ("2", 1)] ∧
    minorityClassesOf
        (List.replicate 5 [("t", Value.num 1)] ++ [[("t", Value.num 2)]]) "t" = ["2"] ∧
    jsFloor (qMulNat (mkRat 4 5) 5) = 4 ∧
    (((balanceClasses zeroNoise
        (List.replicate 5 [("t", Value.num 1)] ++ [[("t", Value.num 2)]]) "t" zeroRng).1).filter
      (fun row => jsToString (getField row "t") == "2")).length = 1 := by
  decide

/-- C6 (amended): balancing only ever appends — the result is the input
dataset followed by the synthetic records, so the length never decreases; the
claimed guarantee that every minority class reaches `floor(0.8 * maxSize)`
does not hold in general, because rows are matched against the stringified
class name by strict equality and synthetic cells need not reproduce the
class label. -/
theorem balanceClasses_append_only_amended (noise : List ℚ → ℚ → ℚ → ℚ) (data : Dataset)
    (t : String) (rng : Rng) :
    (∃ extra, (balanceClasses noise data t rng).1 = data ++ extra) ∧
    data.length ≤ (balanceClasses noise data t rng).1.length := by
  have hmain : ∃ extra, (balanceClasses noise data t rng).1 = data ++ extra := by
    cases h1 : data.any (fun row => truthy (getField row t)) with
    | false =>
      refine ⟨[], ?_⟩
      simp [balanceClasses, h1]
    | true =>
      by_cases h2 : (minorityClassesOf data t).length = 0
      · refine ⟨[], ?_⟩
        simp [balanceClasses, h1, h2]
      · obtain ⟨e, he⟩ := balance_fold_append noise data t (minorityClassesOf data t)
          (data, rng) ⟨[], by simp⟩
        refine ⟨e, ?_⟩
        simp only [balanceClasses, h1, Bool.not_true, Bool.false_eq_true, if_false,
          if_neg h2]
        exact he
  obtain ⟨e, he⟩ := hmain
  exact ⟨⟨e, he⟩, by rw [he]; simp⟩

/-- C8, counterexample: a target column that exists and holds only the
non-missing number `0` is all-falsy, so the code emits the medium
`CLASS_BALANCE_WARNING` and returns the dataset unchanged, although the claim
says balancing proceeds whenever some non-missing value exists. -/
theorem balanceClasses_truthy_precondition_cex :
    (([[("t", Value.num 0)], [("t", Value.num 0)]] : Dataset).any
      (fun row => !isMissing (getField row "t")) = true) ∧
    (balanceClasses zeroNoise [[("t", Value.num 0)], [("t", Value.num 0)]] "t" zeroRng).2.1 =
      [⟨"CLASS_BALANCE_WARNING", Severity.medium⟩] ∧
    (balanceClasses zeroNoise [[("t", Value.num 0)], [("t", Value.num 0)]] "t" zeroRng).1 =
      [[("t", Value.num 0)], [("t", Value.num 0)]] := by
  decide

/-- C8 (amended): `balanceClasses` emits the medium-severity warning and
returns the dataset unchanged exactly when NO record's target cell is truthy
(nonzero number / nonempty string) — JS truthiness, not the MissingMarker
rule, decides the precondition. -/
theorem balanceClasses_warning_iff_amended (noise : List ℚ → ℚ → ℚ → ℚ) (data : Dataset)
    (t : String) (rng : Rng) :
    ((balanceClasses noise data t rng).2.1 = [⟨"CLASS_BALANCE_WARNING", Severity.medium⟩] ↔
      data.any (fun row => truthy (getField row t)) = false) ∧
    (data.any (fun row => truthy (getField row t)) = false →
      (balanceClasses noise data t rng).1 = data) := by
  cases h1 : data.any (fun row => truthy (getField row t)) with
  | false =>
    refine ⟨⟨fun _ => rfl, fun _ => ?_⟩, fun _ => ?_⟩
    · simp [balanceClasses, h1]
    · simp [balanceClasses, h1]
  | true =>
    refine ⟨⟨fun hw => ?_, fun hfalse => ?_⟩, fun hfalse => ?_⟩
    · exfalso
      by_cases h2 : (minorityClassesOf data t).length = 0
      · have hval : (balanceClasses noise data t rng).2.1 =
            [⟨"CLASS_BALANCE_INFO", Severity.low⟩] := by
          simp [balanceClasses, h1, h2]
        rw [hval] at hw
        exact absurd hw (by decide)
      · have hval : (balanceClasses noise data t rng).2.1 =
            [⟨"CLASS_BALANCE_COMPLETE", Severity.low⟩] := by
          simp [balanceClasses, h1, h2]
        rw [hval] at hw
        exact absurd hw (by decide)
    · exact absurd hfalse (by decide)
    · exact absurd hfalse (by decide)

/-- Witness for C8 at a concrete dataset. -/
theorem balanceClasses_warning_iff_amended_witness :
    (balanceClasses zeroNoise [[("t", Value.num 0)]] "t" zeroRng).1 =
      [[("t", Value.num 0)]] :=
  (balanceClasses_warning_iff_amended zeroNoise [[("t", Value.num 0)]] "t" zeroRng).2
    (by decide)

/-! Typo correction (`fixTypos`, `correctTextLocal`).  The external AI
correction pass (`correctTextWithAI`) calls the HuggingFace capability, which
the specification treats as an absent collaborator degrading to a no-op; it
is therefore modeled as the identity and does not appear below. -/

/-- JS regex word characters (`\w`). -/
def isWordChar (c : Char) : Bool := c.isAlphanum || c == '_'

/-- Case-insensitive character comparison. -/
def charIEq (a b : Char) : Bool := a.toLower == b.toLower

/-- Does `w` match a prefix of `cs` case-insensitively? -/
def ciMatch : List Char → List Char → Bool
  | [], _ => true
  | _ :: _, [] => false
  | a :: w, b :: cs => charIEq a b && ciMatch w cs

/-- Word boundary after a match: end of text or a non-word character. -/
def boundaryAfter : List Char → Bool
  | [] => true
  | c :: _ => !isWordChar c

/-- One global, whole-word, case-insensitive replacement pass
(`new RegExp('\\b' + wrong + '\\b', 'gi')`).  All dictionary entries consist
of word characters, so the boundary before a match means the previous source
character is not a word character, and after a match the scanner's previous
character is a word character. -/
def replaceWordAux (w r : List Char) : ℕ → Bool → List Char → List Char
  | 0, _, _ => []
  | _ + 1, _, [] => []
  | fuel + 1, prevWord, c :: rest =>
    if 0 < w.length ∧ prevWord = false ∧ ciMatch w (c :: rest) = true ∧
        boundaryAfter ((c :: rest).drop w.length) = true then
      r ++ replaceWordAux w r fuel true ((c :: rest).drop w.length)
    else c :: replaceWordAux w r fuel (isWordChar c) rest

/-- One dictionary substitution applied globally to a string.  The fuel is
the text length: every step consumes at least one source character, so the
zero-fuel fallback is never reached. -/
def replaceWord (wrong right s : String) : String :=
  String.mk (replaceWordAux wrong.data right.data s.data.length false s.data)

/-- The fixed misspelling / label-case dictionary of `correctTextLocal`, in
source order. -/
def corrections : List (String × String) :=
  [("recieve", "receive"), ("seperate", "separate"), ("definately", "definitely"),
   ("occured", "occurred"), ("neccessary", "necessary"), ("accomodate", "accommodate"),
   ("begining", "beginning"), ("beleive", "believe"), ("calender", "calendar"),
   ("cemetary", "cemetery"), ("MALE", "Male"), ("FEMALE", "Female"), ("YES", "Yes"),
   ("NO", "No"), ("TRUE", "True"), ("FALSE", "False")]

/-- Worker for whitespace collapsing: the first whitespace of a run emits a
single space, the rest of the run is dropped. -/
def collapseWsAux (prevWs : Bool) : List Char → List Char
  | [] => []
  | c :: rest =>
    if c.isWhitespace then
      if prevWs then collapseWsAux true rest else ' ' :: collapseWsAux true rest
    else c :: collapseWsAux false rest

/-- `\s+` collapsed to a single space. -/
def collapseWs (l : List Char) : List Char := collapseWsAux false l

/-- Fueled worker for the punctuation-spacing pass; every step consumes at
least one source character, so fuel equal to the text length suffices. -/
def punctSpaceFuel : ℕ → List Char → List Char
  | 0, _ => []
  | _ + 1, [] => []
  | fuel + 1, c :: rest =>
    if c == '.' || c == '!' || c == '?' then
      let ws := rest.takeWhile Char.isWhitespace
      let rest2 := rest.drop ws.length
      if rest2 ≠ [] ∧ (rest2.headD ' ').isLower = true then
        c :: ' ' :: rest2.headD ' ' :: punctSpaceFuel fuel rest2.tail
      else c :: punctSpaceFuel fuel rest
    else c :: punctSpaceFuel fuel rest

/-- `([.!?])\s*([a-z])` replaced by `$1 $2`, global, matches scanned left to
right and resumed after the consumed letter. -/
def punctSpace (l : List Char) : List Char := punctSpaceFuel l.length l

/-- `([a-z])([A-Z])` replaced by `$1 $2`, global, both characters consumed by
a match. -/
def camelSpace : List Char → List Char
  | [] => []
  | [c] => [c]
  | a :: b :: rest =>
    if a.isLower && b.isUpper then a :: ' ' :: b :: camelSpace rest
    else a :: camelSpace (b :: rest)

/-- `correctTextLocal` from dataProcessor.ts: the dictionary passes in order,
then whitespace collapse, trim, punctuation spacing and camel-case word
splitting. -/
def correctTextLocal (text : String) : String :=
  let corrected := corrections.foldl (fun s p => replaceWord p.1 p.2 s) text
  let collapsed := String.mk (trimChars (collapseWs corrected.data))
  String.mk (camelSpace (punctSpace collapsed.data))

/-- `identifyTextColumns`: columns where more than half of the first
`min(100, N)` rows hold strings longer than ten characters. -/
def identifyTextColumns (data : Dataset) : List String :=
  if data.length = 0 then []
  else
    (columnsOf data).filter (fun column =>
      let sample := data.take (min 100 data.length)
      let textCount := (sample.filter (fun row => match getField row column with
        | Value.str s => s.length > 10
        | _ => false)).length
      decide (mkRat 1 2 < mkRat textCount sample.length))

/-- One text column's local-correction pass over all rows. -/
def fixTyposColumn (column : String) (d : Dataset) : Dataset :=
  d.map (fun row => match getField row column with
    | Value.str s =>
      if s.length > 0 then
        (if correctTextLocal s ≠ s then setField row column (Value.str (correctTextLocal s))
         else row)
      else row
    | _ => row)

/-- `fixTypos` from dataProcessor.ts (local corrections; the AI fallback is
an absent-capability no-op). -/
def fixTypos (data : Dataset) : Dataset × List Warning :=
  let textColumns := identifyTextColumns data
  if textColumns.length = 0 then (data, [])
  else
    (textColumns.foldl (fun d column => fixTyposColumn column d) data,
     [⟨"TYPO_CORRECTION_COMPLETE", Severity.low⟩])

/-! The run statistics and the pipeline entry point. -/

/-- The `DataStatistics` shape of dataProcessor.ts.  Duplicate rows are
counted by exact structural record equality (`JSON.stringify` with preserved
key order). -/
structure DataStatistics where
  totalRows : ℕ
  totalColumns : ℕ
  missingValues : ℕ
  duplicateRows : ℕ
  columnTypes : List (String × ColumnType)
deriving DecidableEq, Repr

/-- `generateStatistics` from dataProcessor.ts. -/
def generateStatistics (data : Dataset) : DataStatistics :=
  if data.length = 0 then ⟨0, 0, 0, 0, []⟩
  else
    { totalRows := data.length
      totalColumns := (columnsOf data).length
      missingValues := ((columnsOf data).map (fun c =>
        ((data.map (fun row => getField row c)).filter (fun v => isMissing v)).length)).sum
      duplicateRows := data.length - (uniqList data).length
      columnTypes := (columnsOf data).map (fun c =>
        (c, inferColumnType (data.map (fun row => getField row c)))) }

/-- `ProcessingOptions`: absent fields model omitted JS options. -/
structure ProcessingOptions where
  fixTypos : Option Bool
  normalizeLabels : Option Bool
  fillMissing : Option Bool
  balanceClasses : Option Bool
  targetColumn : Option String
deriving DecidableEq, Repr

/-- The result object `processData` builds.  Mirroring the source exactly:
line 19 assigns the initial `DataStatistics` OBJECT itself to the
`statistics` field, and line 45 then attaches a `final` property to that
object (modeled as `statisticsFinal`); no `initial` property is ever created,
although the declared `ProcessingResult` interface, the README response
format and the repo's own test all expect `statistics.initial`. -/
structure ProcessingResult where
  originalData : Dataset
  cleanedData : Dataset
  statistics : DataStatistics
  statisticsFinal : Option DataStatistics
  errors : List Warning
  warnings : List Warning
deriving DecidableEq, Repr

/-- JS truthiness of the optional `targetColumn` string. -/
def truthyOptStr : Option String → Bool
  | some t => t != ""
  | none => false

/-- `normalizeLabels` with its summary warning (no categorical columns means
an early return without a warning). -/
def normalizeLabelsW (data : Dataset) : Dataset × List Warning :=
  if (identifyCategoricalColumns data).length = 0 then (data, [])
  else ((normalizeLabels data).1, [⟨"NORMALIZATION_COMPLETE", Severity.low⟩])

/-- `fillMissingValues` with its summary warning (an empty dataset returns
early without a warning). -/
def fillMissingValuesW (data : Dataset) : Dataset × List Warning :=
  if data.length = 0 then (data, [])
  else ((fillMissingValues data).1, [⟨"MISSING_VALUE_COMPLETE", Severity.low⟩])

/-- Steps 1-3 of the pipeline, each enabled unless its option is literally
`false` (the source tests `options.x !== false`). -/
def preBalance (options : ProcessingOptions) (data : Dataset) : Dataset × List Warning :=
  let p1 := if options.fixTypos ≠ some false then fixTypos data else (data, [])
  let p2 := if options.normalizeLabels ≠ some false then normalizeLabelsW p1.1 else (p1.1, [])
  let p3 := if options.fillMissing ≠ some false then fillMissingValuesW p2.1 else (p2.1, [])
  (p3.1, p1.2 ++ p2.2 ++ p3.2)

/-- `processData` from dataProcessor.ts: initial statistics computed eagerly
over the input, the four stages in order, final statistics over the result.
Balancing runs when `balanceClasses !== false` AND a truthy `targetColumn` is
supplied — an unset `balanceClasses` therefore enables the stage. -/
def processData (noise : List ℚ → ℚ → ℚ → ℚ) (options : ProcessingOptions)
    (data : Dataset) (rng : Rng) : ProcessingResult × Rng :=
  let stats0 := generateStatistics data
  let pre := preBalance options data
  let bal :=
    if options.balanceClasses ≠ some false ∧ truthyOptStr options.targetColumn = true then
      balanceClasses noise pre.1 (options.targetColumn.getD "") rng
    else (pre.1, [], rng)
  ({ originalData := data
     cleanedData := bal.1
     statistics := stats0
     statisticsFinal := some (generateStatistics bal.1)
     errors := []
     warnings := pre.2 ++ bal.2.1 }, bal.2.2)

theorem fixTyposColumn_length (c : String) (d : Dataset) :
    (fixTyposColumn c d).length = d.length := by
  simp [fixTyposColumn]

theorem fixTypos_fold_length (cols : List String) (d : Dataset) :
    (cols.foldl (fun d column => fixTyposColumn column d) d).length = d.length := by
  induction cols generalizing d with
  | nil => rfl
  | cons c rest ih =>
    simp only [List.foldl_cons]
    rw [ih, fixTyposColumn_length]

theorem fixTypos_length (data : Dataset) : (fixTypos data).1.length = data.length := by
  simp only [fixTypos]
  by_cases h : (identifyTextColumns data).length = 0
  · rw [if_pos h]
  · rw [if_neg h]
    exact fixTypos_fold_length _ data

theorem normalizeLabelsW_length (data : Dataset) :
    (normalizeLabelsW data).1.length = data.length := by
  unfold normalizeLabelsW
  by_cases h : (identifyCategoricalColumns data).length = 0
  · rw [if_pos h]
  · rw [if_neg h]
    exact normalizeLabels_length data

theorem fillMissingValuesW_length (data : Dataset) :
    (fillMissingValuesW data).1.length = data.length := by
  unfold fillMissingValuesW
  by_cases h : data.length = 0
  · rw [if_pos h]
  · rw [if_neg h]
    exact fillMissingValues_length data

theorem preBalance_length (options : ProcessingOptions) (data : Dataset) :
    (preBalance options data).1.length = data.length := by
  simp only [preBalance]
  by_cases h1 : options.fixTypos ≠ some false <;>
    by_cases h2 : options.normalizeLabels ≠ some false <;>
      by_cases h3 : options.fillMissing ≠ some false <;>
        simp [h1, h2, h3, fixTypos_length, normalizeLabelsW_length, fillMissingValuesW_length]

/-- C7, counterexample: with `balanceClasses` left unset and a target column
supplied, the pipeline DOES balance — `options.balanceClasses !== false`
holds for `undefined` — and three synthetic records are appended to the
six-row dataset. -/
theorem processData_balance_default_cex :
    (⟨none, none, none, none, some "t"⟩ : ProcessingOptions).balanceClasses = none ∧
    ((processData zeroNoise (⟨none, none, none, none, some "t"⟩ : ProcessingOptions)
        (List.replicate 5 [("t", Value.str "aa")] ++ [[("t", Value.str "bb")]])
        zeroRng).1.cleanedData).length = 9 ∧
    (List.replicate 5 [("t", Value.str "aa")] ++ [[("t", Value.str "bb")]] : Dataset).length
      = 6 := by
  decide

/-- C7 (amended): balancing is skipped only when `balanceClasses` is
explicitly `false` or no truthy `targetColumn` is supplied; in that case the
cleaned data is exactly the output of the first three stages and no record is
appended.  An unset `balanceClasses` — contrary to the claimed `false`
default — enables the stage. -/
theorem processData_balance_skip_amended (noise : List ℚ → ℚ → ℚ → ℚ)
    (options : ProcessingOptions) (data : Dataset) (rng : Rng)
    (h : options.balanceClasses = some false ∨ truthyOptStr options.targetColumn = false) :
    (processData noise options data rng).1.cleanedData = (preBalance options data).1 ∧
    ((processData noise options data rng).1.cleanedData).length = data.length := by
  have hcond : ¬(options.balanceClasses ≠ some false ∧
      truthyOptStr options.targetColumn = true) := by
    rintro ⟨h1, h2⟩
    rcases h with h | h
    · exact h1 h
    · rw [h2] at h
      exact absurd h (by decide)
  have hclean : (processData noise options data rng).1.cleanedData =
      (preBalance options data).1 := by
    simp only [processData]
    rw [if_neg hcond]
  exact ⟨hclean, by rw [hclean, preBalance_length]⟩

/-- Witness for C7 applying the amended theorem with `balanceClasses` set to
`false`. -/
theorem processData_balance_skip_amended_witness :
    (processData zeroNoise (⟨none, none, none, some false, some "t"⟩ : ProcessingOptions)
        [[("t", Value.str "aa")]] zeroRng).1.cleanedData =
      (preBalance (⟨none, none, none, some false, some "t"⟩ : ProcessingOptions)
        [[("t", Value.str "aa")]]).1 ∧
    ((processData zeroNoise (⟨none, none, none, some false, some "t"⟩ : ProcessingOptions)
        [[("t", Value.str "aa")]] zeroRng).1.cleanedData).length =
      ([[("t", Value.str "aa")]] : Dataset).length :=
  processData_balance_skip_amended zeroNoise
    (⟨none, none, none, some false, some "t"⟩ : ProcessingOptions)
    [[("t", Value.str "aa")]] zeroRng (Or.inl rfl)

/-- The end-to-end example dataset of the specification. -/
def endToEndData : Dataset :=
  [[("name", Value.str "john doe"), ("email", Value.str "john@invalid"),
    ("age", Value.str ""), ("category", Value.str "MALE")],
   [("name", Value.str "jane smith"), ("email", Value.str "jane.smith@email.com"),
    ("age", Value.str "25"), ("category", Value.str "female")]]

/-- All stages enabled with `targetColumn = "category"`. -/
def endToEndOpts : ProcessingOptions :=
  ⟨some true, some true, some true, some true, some "category"⟩

/-- C3: on the end-to-end example the claimed missing-value numbers hold (one
before, zero after), but the code never creates a `statistics.initial`
property: the initial `DataStatistics` object is assigned as the
`statistics` value itself and the final statistics are attached to it,
contradicting the declared `ProcessingResult` interface, the documented
response format and the repository's own test script. -/
theorem processData_statistics_shape :
    (processData zeroNoise endToEndOpts endToEndData zeroRng).1.statistics =
      generateStatistics endToEndData ∧
    (processData zeroNoise endToEndOpts endToEndData zeroRng).1.statistics.missingValues = 1 ∧
    ((processData zeroNoise endToEndOpts endToEndData zeroRng).1.statisticsFinal.map
      DataStatistics.missingValues) = some 0 := by
  exact ⟨by decide, by decide, by decide⟩

/-! The reference-semantics (heap) model of the pipeline for the mutation
claim: record objects live in a store, a JS array of records is an array of
references into it, and `[...data]` copies only the reference array.  Stage
bodies are the same loops as above, but cell writes go through the store, as
`correctedData[i][column] = v` / `filledData[index][column] = v` do in the
source. -/

/-- The object store: record objects addressed by position. -/
abbrev Store := List Record

/-- A reference to a record object. -/
abbrev RecordRef := ℕ

/-- A JS array of records: a list of references. -/
abbrev DatasetRef := List RecordRef

/-- Dereference one record. -/
def readRecord (st : Store) (r : RecordRef) : Record := st.getD r []

/-- The value of a reference array: the referenced records in order. -/
def readData (st : Store) (ds : DatasetRef) : Dataset := ds.map (readRecord st)

/-- `array[i][column] = v`: mutate the record object in the store. -/
def writeCell (st : Store) (r : RecordRef) (c : String) (v : Value) : Store :=
  st.set r (setField (readRecord st r) c v)

/-- `fixTypos` under reference semantics: writes go into the shared record
objects. -/
def fixTyposH (st : Store) (ds : DatasetRef) : Store :=
  let textColumns := identifyTextColumns (readData st ds)
  if textColumns.length = 0 then st
  else
    textColumns.foldl (fun st column =>
      ds.foldl (fun st r =>
        match getField (readRecord st r) column with
        | Value.str s =>
          if s.length > 0 then
            (if correctTextLocal s ≠ s then
              writeCell st r column (Value.str (correctTextLocal s))
            else st)
          else st
        | _ => st) st) st

/-- `normalizeLabels` under reference semantics. -/
def normalizeLabelsH (st : Store) (ds : DatasetRef) : Store :=
  (identifyCategoricalColumns (readData st ds)).foldl (fun st column =>
    let m := mapFor (readData st ds) column
    ds.foldl (fun st r =>
      let ov := getField (readRecord st r) column
      let nv := applyMap m ov
      if nv ≠ ov then writeCell st r column nv else st) st) st

/-- `fillMissingValues` under reference semantics: the fill value is written
into the very record objects the caller's array references. -/
def fillMissingValuesH (st : Store) (ds : DatasetRef) : Store :=
  if ds.length = 0 then st
  else
    let columns := (readRecord st (ds.headD 0)).map Prod.fst
    columns.foldl (fun st column =>
      let columnData := ds.map (fun r => getField (readRecord st r) column)
      if columnData.countP isMissing = 0 then st
      else
        let fillValue := calculateFillValue columnData (inferColumnType columnData)
        ds.foldl (fun st r =>
          if isMissing (getField (readRecord st r) column) then
            writeCell st r column fillValue
          else st) st) st

/-- `balanceClasses` under reference semantics: existing records are never
mutated, synthetic records are fresh objects appended to the store and
referenced from the result array only. -/
def balanceClassesH (noise : List ℚ → ℚ → ℚ → ℚ) (st : Store) (ds : DatasetRef)
    (targetColumn : String) (rng : Rng) : Store × DatasetRef × Rng :=
  let data := readData st ds
  if !(data.any (fun row => truthy (getField row targetColumn))) then (st, ds, rng)
  else if (minorityClassesOf data targetColumn).length = 0 then (st, ds, rng)
  else
    let pureRes := (minorityClassesOf data targetColumn).foldl
      (balanceFoldStep noise data targetColumn) (data, rng)
    let extra := pureRes.1.drop data.length
    (st ++ extra, ds ++ (List.range extra.length).map (fun i => st.length + i), pureRes.2)

/-- `processData` under reference semantics.  Returns the final store, the
reference array held by `result.originalData` (the caller's own array) and
the one held by `result.cleanedData`, plus the random state. -/
def processDataH (noise : List ℚ → ℚ → ℚ → ℚ) (options : ProcessingOptions)
    (st : Store) (ds : DatasetRef) (rng : Rng) : Store × DatasetRef × DatasetRef × Rng :=
  let st1 := if options.fixTypos ≠ some false then fixTyposH st ds else st
  let st2 := if options.normalizeLabels ≠ some false then normalizeLabelsH st1 ds else st1
  let st3 := if options.fillMissing ≠ some false then fillMissingValuesH st2 ds else st2
  if options.balanceClasses ≠ some false ∧ truthyOptStr options.targetColumn = true then
    let b := balanceClassesH noise st3 ds (options.targetColumn.getD "") rng
    (b.1, ds, b.2.1, b.2.2)
  else (st3, ds, ds, rng)

/-- C1: running the pipeline mutates the original input.  On the dataset
`[{a: "1"}, {a: ""}]` with default options, imputation writes the median `1`
into the second record object — which the input array still references — so
after the run `result.originalData` no longer shows the original value `""`. -/
theorem processData_mutates_input :
    getField (readRecord ([[("a", Value.str "1")], [("a", Value.str "")]] : Store) 1) "a" =
      Value.str "" ∧
    getField (readRecord (processDataH zeroNoise
        (⟨none, none, none, none, none⟩ : ProcessingOptions)
        [[("a", Value.str "1")], [("a", Value.str "")]] [0, 1] zeroRng).1 1) "a" =
      Value.num 1 ∧
    readData (processDataH zeroNoise (⟨none, none, none, none, none⟩ : ProcessingOptions)
        [[("a", Value.str "1")], [("a", Value.str "")]] [0, 1] zeroRng).1
      (processDataH zeroNoise (⟨none, none, none, none, none⟩ : ProcessingOptions)
        [[("a", Value.str "1")], [("a", Value.str "")]] [0, 1] zeroRng).2.1 ≠
      readData ([[("a", Value.str "1")], [("a", Value.str "")]] : Store) [0, 1] := by
  exact ⟨by decide, by decide, by decide⟩

end ClarifAI
